import Mathlib

/-!
# Confusables table generator (`lib/confusables/generate_list.go`)

A shallow embedding of the generator script: Go strings are byte sequences,
`[]rune(s)` is UTF-8 decoding, `unicode.In`/`unicode.IsSpace` are table lookups,
`formatUnicodeIDs` is a fallible fold over the space-separated tokens, the
line pattern is a regular expression run with leftmost-first (backtracking)
semantics, and `main` is a function from the outside world's answers to the
list of effects the run performs.
-/

namespace Confusables

/-! ## Go strings and UTF-8 -/

/-- A Go string is an immutable sequence of bytes; a byte is a natural number below 256. -/
abbrev GoString := List Nat

/-- The rune `utf8.RuneError` (U+FFFD), produced for every byte that is not valid UTF-8. -/
def RuneError : Nat := 0xFFFD

/-- UTF-8 bytes of one code point, as `utf8.AppendRune` writes them (surrogates and values
above U+10FFFF are written as `RuneError`). -/
def encodeRune (r : Nat) : GoString :=
  if r < 0x80 then [r]
  else if r < 0x800 then [0xC0 + r / 64, 0x80 + r % 64]
  else if (0xD800 ≤ r ∧ r ≤ 0xDFFF) ∨ 0x10FFFF < r then [0xEF, 0xBF, 0xBD]
  else if r < 0x10000 then [0xE0 + r / 4096, 0x80 + r / 64 % 64, 0x80 + r % 64]
  else [0xF0 + r / 262144, 0x80 + r / 4096 % 64, 0x80 + r / 64 % 64, 0x80 + r % 64]

/-- The bytes of a string literal of the source text (Go source is UTF-8). -/
def lit (s : String) : GoString :=
  s.data.foldr (fun c acc => encodeRune c.toNat ++ acc) []

/-- Continuation-byte test of `utf8.DecodeRune` (`locb ≤ b ≤ hicb`). -/
def isCont (b : Nat) : Bool := 0x80 ≤ b && b ≤ 0xBF

/-- Decoding of the first rune of a non-empty string, `utf8.DecodeRuneInString`: the rune and
its width in bytes.  An invalid or truncated encoding yields `(RuneError, 1)`; the empty string
yields `(RuneError, 0)`.  The masks and shifts of the Go code are written with `%` and `*`. -/
def decodeRune : GoString → Nat × Nat
  | [] => (RuneError, 0)
  | p0 :: rest =>
    if p0 < 0x80 then (p0, 1)
    else if p0 < 0xC2 then (RuneError, 1)
    else if p0 < 0xE0 then
      match rest with
      | b1 :: _ => if isCont b1 then (p0 % 32 * 64 + b1 % 64, 2) else (RuneError, 1)
      | _ => (RuneError, 1)
    else if p0 < 0xF0 then
      match rest with
      | b1 :: b2 :: _ =>
        let lo := if p0 = 0xE0 then 0xA0 else 0x80
        let hi := if p0 = 0xED then 0x9F else 0xBF
        if lo ≤ b1 ∧ b1 ≤ hi ∧ isCont b2 then
          (p0 % 16 * 4096 + b1 % 64 * 64 + b2 % 64, 3)
        else (RuneError, 1)
      | _ => (RuneError, 1)
    else if p0 < 0xF5 then
      match rest with
      | b1 :: b2 :: b3 :: _ =>
        let lo := if p0 = 0xF0 then 0x90 else 0x80
        let hi := if p0 = 0xF4 then 0x8F else 0xBF
        if lo ≤ b1 ∧ b1 ≤ hi ∧ isCont b2 ∧ isCont b3 then
          (p0 % 8 * 262144 + b1 % 64 * 4096 + b2 % 64 * 64 + b3 % 64, 4)
        else (RuneError, 1)
      | _ => (RuneError, 1)
    else (RuneError, 1)

/-- One decoded position of a string: the rune and the bytes it was decoded from. -/
structure Sym where
  rune : Nat
  bytes : GoString
  deriving DecidableEq, Repr

/-- Decoding of a whole string, rune by rune, as a `range` loop over the string walks it.
The first argument bounds the number of runes; `symbols` passes the byte length. -/
def decodeSyms : Nat → GoString → List Sym
  | 0, _ => []
  | _, [] => []
  | n + 1, b :: rest =>
    let d := decodeRune (b :: rest)
    ⟨d.1, (b :: rest).take d.2⟩ :: decodeSyms n ((b :: rest).drop d.2)

/-- The decoded positions of a string. -/
def symbols (s : GoString) : List Sym := decodeSyms s.length s

/-- The conversion `[]rune(s)`. -/
def runes (s : GoString) : List Nat := (symbols s).map Sym.rune

/-! ## `unicode` range tables -/

/-- A `unicode.Range16` / `unicode.Range32` entry. -/
structure Range where
  Lo : Nat
  Hi : Nat
  Stride : Nat
  deriving DecidableEq, Repr

/-- A `unicode.RangeTable`. -/
structure RangeTable where
  R16 : List Range
  R32 : List Range
  LatinOffset : Nat
  deriving DecidableEq, Repr

/-- The linear scan of `unicode.is16` / `unicode.is32` (tables are sorted by `Lo`). -/
def isInRanges : List Range → Nat → Bool
  | [], _ => false
  | rg :: rest, r =>
    if r < rg.Lo then false
    else if r ≤ rg.Hi then rg.Stride = 1 || (r - rg.Lo) % rg.Stride = 0
    else isInRanges rest r

/-- The function `unicode.Is`: the 16-bit ranges when the rune is not above their last `Hi`,
else the 32-bit ranges. -/
def Is (rangeTab : RangeTable) (r : Nat) : Bool :=
  match rangeTab.R16.getLast? with
  | some last =>
    if r ≤ last.Hi then isInRanges rangeTab.R16 r
    else
      match rangeTab.R32.head? with
      | some first => if first.Lo ≤ r then isInRanges rangeTab.R32 r else false
      | none => false
  | none =>
    match rangeTab.R32.head? with
    | some first => if first.Lo ≤ r then isInRanges rangeTab.R32 r else false
    | none => false

/-- The function `unicode.In`: membership in one of the given tables. -/
def In (r : Nat) (ranges : List RangeTable) : Bool :=
  ranges.any (fun inside => Is inside r)

/-- The table `BasicLatin` of the script: the single range 0x21..0x7E. -/
def BasicLatin : RangeTable :=
  { R16 := [⟨0x0021, 0x007E, 1⟩], R32 := [], LatinOffset := 5 }

/-- The function `unicode.IsSpace`: the Latin-1 switch, then the `White_Space` property. -/
def IsSpace (r : Nat) : Bool :=
  if r ≤ 0xFF then
    r = 0x09 || r = 0x0A || r = 0x0B || r = 0x0C || r = 0x0D || r = 0x20 || r = 0x85 || r = 0xA0
  else
    r = 0x1680 || (0x2000 ≤ r && r ≤ 0x200A) || r = 0x2028 || r = 0x2029 || r = 0x202F
      || r = 0x205F || r = 0x3000

/-! ## `isAllowed` -/

/-- The function `isAllowed(from, to)`. -/
def isAllowed (from_ to_ : GoString) : Bool :=
  let fromRune := runes from_
  let toRune := runes to_
  if fromRune.length > 1 then false
  else if fromRune.any (fun rn => In rn [BasicLatin]) then false
  else toRune.any (fun rn => In rn [BasicLatin] || IsSpace rn)

/-! ## `formatUnicodeIDs` -/

/-- The call `strings.Split(s, " ")`: the pieces between single space bytes, one more piece than
there are spaces. -/
def splitSpace : GoString → List GoString
  | [] => [[]]
  | b :: rest =>
    if b = 0x20 then [] :: splitSpace rest
    else
      match splitSpace rest with
      | t :: ts => (b :: t) :: ts
      | [] => [[b]]

/-- The call `strings.Repeat(s, count)`: it panics (`none`) on a negative count. -/
def Repeat (s : GoString) (count : Int) : Option GoString :=
  if count < 0 then none else some (List.replicate count.toNat s).flatten

/-- One round of the loop of `formatUnicodeIDs`: `\U`, the zero padding, the token. -/
def formatStep (formattedIDs : GoString) (charID : GoString) : Option GoString :=
  (Repeat (lit "0") (8 - (charID.length : Int))).map
    (fun pad => formattedIDs ++ (lit "\\U" ++ pad ++ charID))

/-- The function `formatUnicodeIDs`; `none` is a run-time panic. -/
def formatUnicodeIDs (ids : GoString) : Option GoString :=
  (splitSpace ids).foldlM formatStep []

/-! ## The `regexp` package: syntax, simplification, leftmost-first matching -/

/-- A parsed regular expression, restricted to the operators the line pattern uses.  A character
class is a list of inclusive rune ranges; a literal rune and `.` are classes too. -/
inductive Regex where
  | empty : Regex
  | cls (ranges : List (Nat × Nat)) : Regex
  | cat (a b : Regex) : Regex
  | star (x : Regex) : Regex
  | plus (x : Regex) : Regex
  | quest (x : Regex) : Regex
  | atLeast (n : Nat) (x : Regex) : Regex
  | capture (index : Nat) (x : Regex) : Regex
  deriving DecidableEq, Repr

/-- Membership of a rune in a character class. -/
def inClass (ranges : List (Nat × Nat)) (rn : Nat) : Bool :=
  ranges.any (fun p => p.1 ≤ rn && rn ≤ p.2)

/-- The ranges of the class `[a-zA-Z0-9 ]` under the flag `i`: case folding adds U+017F (long s)
and U+212A (Kelvin sign), the other members of the folding orbits of `s` and `k`. -/
def idRanges : List (Nat × Nat) :=
  [(0x20, 0x20), (0x30, 0x39), (0x41, 0x5A), (0x61, 0x7A), (0x17F, 0x17F), (0x212A, 0x212A)]

/-- The ranges of the class `[a-z]` under the flag `i`. -/
def letterRanges : List (Nat × Nat) :=
  [(0x41, 0x5A), (0x61, 0x7A), (0x17F, 0x17F), (0x212A, 0x212A)]

/-- The ranges of `.` without the `s` flag: any rune except the newline. -/
def dotRanges : List (Nat × Nat) := [(0, 9), (11, 0x10FFFF)]

/-- The literal rune `c`. -/
def Regex.chr (c : Nat) : Regex := .cls [(c, c)]

/-- The expression `.` without the `s` flag: any rune except the newline. -/
def Regex.anyNotNL : Regex := .cls dotRanges

/-- Concatenation of a list of expressions. -/
def Regex.seq : List Regex → Regex
  | [] => .empty
  | [x] => x
  | x :: rest => .cat x (Regex.seq rest)

/-- `n` copies of `x` followed by `tail`. -/
def Regex.copies (x : Regex) : Nat → Regex → Regex
  | 0, tail => tail
  | n + 1, tail => .cat x (Regex.copies x n tail)

/-- The pass `syntax.Regexp.Simplify`, for the operators above: a repetition operator applied to
the same operator is applied once (`(?:x+)+` is `x+`), `x{0,}` is `x*`, `x{1,}` is `x+` and
`x{n,}` is `n-1` copies of `x` followed by `x+`. -/
def simplify : Regex → Regex
  | .empty => .empty
  | .cls rs => .cls rs
  | .cat a b => .cat (simplify a) (simplify b)
  | .star x =>
    match simplify x with
    | .star y => .star y
    | y => .star y
  | .plus x =>
    match simplify x with
    | .plus y => .plus y
    | y => .plus y
  | .quest x =>
    match simplify x with
    | .quest y => .quest y
    | y => .quest y
  | .atLeast n x =>
    match n with
    | 0 => .star (simplify x)
    | m + 1 => Regex.copies (simplify x) m (.plus (simplify x))
  | .capture i x => .capture i (simplify x)

/-- The capture slots of a search, as the `cap` array of the matching machines: slot `2i` is the
position where group `i` opened and slot `2i+1` where it closed.  A position is given by the input
that remains there. -/
abbrev Caps := List (Option (List Sym))

/-- What is done with the rest of the input once an expression has matched a prefix of it. -/
abbrev Cont := List Sym → Caps → Option Caps

/-- A greedy loop over `body`: another round is tried first, the exit second.  A round that
consumes nothing is not taken.  The first argument bounds the number of rounds; `matchRe` passes
one more than the length of the input, which rounds that consume input never exhaust. -/
def loop (body : List Sym → Caps → Cont → Option Caps) : Nat → List Sym → Caps → Cont → Option Caps
  | 0, s, c, k => k s c
  | n + 1, s, c, k =>
    match body s c (fun s' c' => if s'.length < s.length then loop body n s' c' k else none) with
    | some res => some res
    | none => k s c

/-- `n` rounds of `body`, one after the other, then `k`. -/
def times (body : List Sym → Caps → Cont → Option Caps) : Nat → List Sym → Caps → Cont → Option Caps
  | 0, s, c, k => k s c
  | n + 1, s, c, k => body s c (fun s' c' => times body n s' c' k)

/-- Leftmost-first matching of an expression at the start of `s`: the search a backtracking
matcher performs, every choice tried in the order of preference (greedy operators prefer one more
round), the first success returned.  `k` is run on the input left over and the capture slots. -/
def matchRe : Regex → List Sym → Caps → Cont → Option Caps
  | .empty, s, c, k => k s c
  | .cls rs, s, c, k =>
    match s with
    | x :: rest => if inClass rs x.rune then k rest c else none
    | [] => none
  | .cat a b, s, c, k => matchRe a s c (fun s' c' => matchRe b s' c' k)
  | .star x, s, c, k => loop (matchRe x) (s.length + 1) s c k
  | .plus x, s, c, k => matchRe x s c (fun s' c' => loop (matchRe x) (s'.length + 1) s' c' k)
  | .quest x, s, c, k =>
    match matchRe x s c k with
    | some res => some res
    | none => k s c
  | .atLeast n x, s, c, k =>
    times (matchRe x) n s c (fun s' c' => loop (matchRe x) (s'.length + 1) s' c' k)
  | .capture i x, s, c, k =>
    matchRe x s (c.set (2 * i) (some s)) (fun s' c' => k s' (c'.set (2 * i + 1) (some s')))

/-- The number of capture groups of an expression (the largest group index). -/
def numSubexp : Regex → Nat
  | .empty => 0
  | .cls _ => 0
  | .cat a b => max (numSubexp a) (numSubexp b)
  | .star x => numSubexp x
  | .plus x => numSubexp x
  | .quest x => numSubexp x
  | .atLeast _ x => numSubexp x
  | .capture i x => max i (numSubexp x)

/-- The end of a match: slot 1 records where the whole match closed. -/
def accept : Cont := fun s' c' => some (c'.set 1 (some s'))

/-- An unanchored search: the match is tried at the start of the input, then one rune further,
and so on up to the end of the input; the first position with a match wins. -/
def searchFrom (re : Regex) (ncap : Nat) : List Sym → Option Caps
  | [] => matchRe re [] ((List.replicate ncap none).set 0 (some [])) accept
  | x :: rest =>
    match matchRe re (x :: rest) ((List.replicate ncap none).set 0 (some (x :: rest))) accept with
    | some res => some res
    | none => searchFrom re ncap rest

/-- The bytes between two positions of the input. -/
def slice (open_ close : List Sym) : GoString :=
  ((open_.take (open_.length - close.length)).map Sym.bytes).flatten

/-- The text of group `i`: the empty string when the group took no part in the match. -/
def groupText (c : Caps) (i : Nat) : GoString :=
  match c.getD (2 * i) none, c.getD (2 * i + 1) none with
  | some a, some b => slice a b
  | _, _ => []

/-- The method `FindStringSubmatch`: `none` is the `nil` slice of a failed search, otherwise the
text of the whole match followed by the text of each group. -/
def FindStringSubmatch (re : Regex) (s : GoString) : Option (List GoString) :=
  (searchFrom re (2 * (numSubexp re + 1)) (symbols s)).map
    (fun c => (List.range (numSubexp re + 1)).map (groupText c))

/-- The class `[a-zA-Z0-9 ]` under the flag `i`. -/
def idClass : Regex := .cls idRanges

/-- The class `[a-z]` under the flag `i`. -/
def letterClass : Regex := .cls letterRanges

/-- The line pattern of `main` as parsed:
`(?i)(?P<sus>[a-zA-Z0-9 ]*) ;⇥(?P<unsus>[a-zA-Z0-9 ]*)+ ;⇥[a-z]\x7b2,\x7d⇥#\*? \( (?P<suschar>.+) →(?: .+ →)* (?P<unsuschar>.+) \) (?:.+)+ → (?:.+)`
(`⇥` stands for the tab character of the source). -/
def pattern : Regex :=
  Regex.seq [
    .capture 1 (.star idClass),
    .chr 0x20, .chr 0x3B, .chr 0x09,
    .plus (.capture 2 (.star idClass)),
    .chr 0x20, .chr 0x3B, .chr 0x09,
    .atLeast 2 letterClass,
    .chr 0x09, .chr 0x23,
    .quest (.chr 0x2A),
    .chr 0x20, .chr 0x28, .chr 0x20,
    .capture 3 (.plus .anyNotNL),
    .chr 0x20, .chr 0x2192,
    .star (Regex.seq [.chr 0x20, .plus .anyNotNL, .chr 0x20, .chr 0x2192]),
    .chr 0x20,
    .capture 4 (.plus .anyNotNL),
    .chr 0x20, .chr 0x29, .chr 0x20,
    .plus (.plus .anyNotNL),
    .chr 0x20, .chr 0x2192, .chr 0x20,
    .plus .anyNotNL]

/-- The call `regexp.MustCompile`: the parsed expression is simplified before it is run. -/
def MustCompile (re : Regex) : Regex := simplify re

/-- The compiled line pattern `r` of `main`. -/
def r : Regex := MustCompile pattern

/-! ## The mapping and `main` -/

/-- A Go `map[string]string`, as the list of its entries. -/
abbrev GoMap := List (GoString × GoString)

/-- The lookup `m[k]` with its presence flag. -/
def GoMap.get : GoMap → GoString → Option GoString
  | [], _ => none
  | (k', v') :: rest, k => if k' = k then some v' else GoMap.get rest k

/-- The assignment `m[k] = v`: the value of an existing key is replaced, a new key is added. -/
def GoMap.set : GoMap → GoString → GoString → GoMap
  | [], k, v => [(k, v)]
  | (k', v') :: rest, k, v => if k' = k then (k, v) :: rest else (k', v') :: GoMap.set rest k v

/-- The body of the scanner loop of `main` for one line `txt`: the mapping after the round, or
`none` when `formatUnicodeIDs` panics. -/
def lineStep (confusables : GoMap) (txt : GoString) : Option GoMap :=
  match FindStringSubmatch r txt with
  | none => some confusables
  | some «matches» =>
    if «matches».length ≤ 0 then some confusables
    else if !isAllowed («matches».getD 3 []) («matches».getD 4 []) then some confusables
    else
      match formatUnicodeIDs («matches».getD 1 []), formatUnicodeIDs («matches».getD 2 []) with
      | some confusable, some targettedCharacter =>
        some (confusables.set confusable targettedCharacter)
      | _, _ => none

/-- The scanner loop of `main` over the lines of the upstream document. -/
def scanLines : GoMap → List GoString → Option GoMap
  | confusables, [] => some confusables
  | confusables, txt :: rest =>
    match lineStep confusables txt with
    | some m => scanLines m rest
    | none => none

/-- The line `fmt.Sprintf("\t\"%s\",\"%s\",\n", confusable, confused)` of the table. -/
def entryLine (e : GoString × GoString) : GoString :=
  lit "\t\"" ++ e.1 ++ lit "\",\"" ++ e.2 ++ lit "\",\n"

/-- The rendering loop of `main` over the entries in the order the `range` yields them. -/
def tableBody (entries : List (GoString × GoString)) : GoString :=
  entries.foldl (fun fileContent e => fileContent ++ entryLine e)
    (lit "var confusables = []string\x7b\n") ++ lit "\x7d"

/-- What the outside world answers during one run of `main`. -/
structure World where
  /-- The error of `os.OpenFile` on the supplemental file, if it fails. -/
  openErr : Option GoString
  /-- The mapping after `decoder.Decode(&confusables)`. -/
  decoded : GoMap
  /-- The error of `decoder.Decode`, if it fails. -/
  decodeErr : Option GoString
  /-- The error of `http.Get`, if it fails. -/
  getErr : Option GoString
  /-- The lines the scanner yields. -/
  lines : List GoString
  /-- The error of `scanner.Err()`, if the scan stopped on one. -/
  scanErr : Option GoString
  /-- The order in which `range` visits the entries of a mapping. -/
  rangeOrder : GoMap → List (GoString × GoString)

/-- An effect of a run, in the order performed. -/
inductive Effect where
  | openFile (name : GoString) : Effect
  | println (msg : GoString) : Effect
  | httpGet (uri : GoString) : Effect
  | writeGoFile (filename pkg b : GoString) : Effect
  | panic : Effect
  deriving DecidableEq, Repr

/-- The variable `ExtraConfusablesFile`. -/
def ExtraConfusablesFile : GoString := lit "./extraConfusables.json"

/-- The variable `ConfusablesURI`. -/
def ConfusablesURI : GoString :=
  lit "https://www.unicode.org/Public/security/revision-06/confusables.txt"

/-- The effects of what `main` does once the upstream document has been fetched. -/
def mainAfterGet (w : World) : List Effect :=
  match scanLines w.decoded w.lines with
  | none => [.panic]
  | some confusables =>
    match w.scanErr with
    | some err => [.println err]
    | none =>
      [.writeGoFile (lit "confusables_table.go") (lit "confusables")
        (tableBody (w.rangeOrder confusables))]

/-- The effects of what `main` does once the supplemental file is open. -/
def mainAfterOpen (w : World) : List Effect :=
  (match w.decodeErr with
    | some err => [.println err]
    | none => [])
  ++ .httpGet ConfusablesURI ::
    (match w.getErr with
      | some err => [.println err]
      | none => mainAfterGet w)

/-- The function `main`: the effects of a run. -/
def main (w : World) : List Effect :=
  .openFile ExtraConfusablesFile ::
    (match w.openErr with
      | some err => [.println err]
      | none => mainAfterOpen w)

/-! ## Concrete lines -/

/-- The upstream line of the spec that maps Latin `A` to Latin `a`. -/
def latinLine : GoString :=
  lit "0041 ;\t0061 ;\tMA\t# ( A → a ) LATIN CAPITAL LETTER A → LATIN SMALL LETTER A"

/-- A matching line whose source ID token has nine hexadecimal digits. -/
def longIdLine : GoString :=
  lit "000000430 ;\t0061 ;\tMA\t# ( а → a ) CYRILLIC SMALL LETTER A → LATIN SMALL LETTER A"

/-- The upstream line of the spec that maps Cyrillic `а` (U+0430) to Latin `a`. -/
def cyrillicLine : GoString :=
  lit "0430 ;\t0061 ;\tMA\t# ( а → a ) CYRILLIC SMALL LETTER A → LATIN SMALL LETTER A"

/-- Spec side: the value of one hexadecimal digit byte. -/
def hexDigit (b : Nat) : Option Nat :=
  if 0x30 ≤ b ∧ b ≤ 0x39 then some (b - 0x30)
  else if 0x41 ≤ b ∧ b ≤ 0x46 then some (b - 0x41 + 10)
  else if 0x61 ≤ b ∧ b ≤ 0x66 then some (b - 0x61 + 10)
  else none

/-- Spec side: the number written by a string of hexadecimal digits. -/
def hexValue (ds : GoString) : Option Nat :=
  ds.foldlM (fun acc d => (hexDigit d).map (fun v => acc * 16 + v)) 0

/-- Spec side: the code-point sequence a key or value of the table denotes, the string being a
sequence of escapes `\U` followed by 8 hexadecimal digits. -/
def denoted : GoString → Option (List Nat)
  | [] => some []
  | 0x5C :: 0x55 :: d1 :: d2 :: d3 :: d4 :: d5 :: d6 :: d7 :: d8 :: rest =>
    match hexValue [d1, d2, d3, d4, d5, d6, d7, d8], denoted rest with
    | some v, some vs => some (v :: vs)
    | _, _ => none
  | _ => none

/-- A matching line whose ID field names Latin `A` while its rendered confusable character is
Cyrillic `а`. -/
def mismatchLine : GoString :=
  lit "0041 ;\t0061 ;\tMA\t# ( а → a ) CYRILLIC SMALL LETTER A → LATIN SMALL LETTER A"

/-- A world in which the supplemental file holds one entry and the upstream feed one comment
line. -/
def oneEntryWorld : World :=
  { openErr := none
    decoded := [(lit "\\U00000100", lit "A")]
    decodeErr := none
    getErr := none
    lines := [lit "# comment"]
    scanErr := none
    rangeOrder := fun m => m }

/-- A world in which opening the supplemental file fails and everything else would succeed. -/
def openFailsWorld : World :=
  { openErr := some (lit "open ./extraConfusables.json: permission denied")
    decoded := []
    decodeErr := none
    getErr := none
    lines := [cyrillicLine]
    scanErr := none
    rangeOrder := fun m => m }

/-- A world in which the supplemental file is empty, so that decoding it fails with `EOF`. -/
def decodeFailsWorld : World :=
  { openErr := none
    decoded := []
    decodeErr := some (lit "EOF")
    getErr := none
    lines := [cyrillicLine]
    scanErr := none
    rangeOrder := fun m => m }

/-! ## Lines in the documented upstream format -/

/-- Unicode scalar values: the code points that UTF-8 encodes. -/
def isScalar (c : Nat) : Prop := c < 0xD800 ∨ (0xE000 ≤ c ∧ c ≤ 0x10FFFF)

instance (c : Nat) : Decidable (isScalar c) := by unfold isScalar; infer_instance

/-- The UTF-8 text of a sequence of code points. -/
def text (cps : List Nat) : GoString := cps.flatMap encodeRune

/-- The decoded position a code point of a text gives. -/
def sy (c : Nat) : Sym := ⟨c, encodeRune c⟩

/-- The annotation chain `c1 → c2 → ... → ck` of rendered characters, as code points: the
characters joined by space, arrow (U+2192), space. -/
def chainCps : List Nat → List Nat
  | [] => []
  | [c] => [c]
  | c :: rest => c :: 0x20 :: 0x2192 :: 0x20 :: chainCps rest

/-- A line in the documented upstream format
`<sourceIDs> ;⇥<targetIDs> ;⇥<category>⇥#[*] ( <chain> ) <comment> → <comment>`, as code
points. -/
def upstreamLine (sourceIDs targetIDs category : List Nat) (starred : Bool)
    (chain comment1 comment2 : List Nat) : List Nat :=
  sourceIDs ++ [0x20, 0x3B, 0x09] ++ targetIDs ++ [0x20, 0x3B, 0x09] ++ category ++ [0x09, 0x23]
    ++ (if starred then [0x2A] else []) ++ [0x20, 0x28, 0x20] ++ chainCps chain
    ++ [0x20, 0x29, 0x20] ++ comment1 ++ [0x20, 0x2192, 0x20] ++ comment2

/-- Whether every match of an expression reads the rune `a` somewhere. -/
def mustRead (a : Nat) : Regex → Bool
  | .empty => false
  | .cls rs => rs = [(a, a)]
  | .cat x y => mustRead a x || mustRead a y
  | .star _ => false
  | .plus x => mustRead a x
  | .quest _ => false
  | .atLeast _ _ => false
  | .capture _ x => mustRead a x

/-- The capture slots an expression writes. -/
def slots : Regex → List Nat
  | .empty => []
  | .cls _ => []
  | .cat x y => slots x ++ slots y
  | .star x => slots x
  | .plus x => slots x
  | .quest x => slots x
  | .atLeast _ x => slots x
  | .capture i x => 2 * i :: (2 * i + 1) :: slots x

/-- The end of the compiled pattern, `.+ → .+`. -/
def tailElems : List Regex :=
  [.plus .anyNotNL, .chr 0x20, .chr 0x2192, .chr 0x20, .plus .anyNotNL]

/-- The compiled pattern from the space before group 4 on. -/
def closeElems : List Regex :=
  [.chr 0x20, .capture 4 (.plus .anyNotNL), .chr 0x20, .chr 0x29, .chr 0x20] ++ tailElems

/-- The body of the starred group `(?: .+ →)`. -/
def linkRe : Regex := Regex.seq [.chr 0x20, .plus .anyNotNL, .chr 0x20, .chr 0x2192]

/-- The compiled pattern from the arrow after group 3 on. -/
def arrowElems : List Regex := [.chr 0x20, .chr 0x2192, .star linkRe] ++ closeElems

/-- The compiled pattern from group 3 on. -/
def chainElems : List Regex := .capture 3 (.plus .anyNotNL) :: arrowElems

/-- The compiled pattern from the category on. -/
def categoryElems : List Regex :=
  [.cat (.cls letterRanges) (.plus (.cls letterRanges)), .chr 0x09, .chr 0x23,
    .quest (.chr 0x2A), .chr 0x20, .chr 0x28, .chr 0x20] ++ chainElems

/-- The compiled pattern from group 2 on. -/
def targetElems : List Regex :=
  [.plus (.capture 2 (.star (.cls idRanges))), .chr 0x20, .chr 0x3B, .chr 0x09] ++ categoryElems

/-- The compiled pattern, element by element. -/
def rElems : List Regex :=
  [.capture 1 (.star (.cls idRanges)), .chr 0x20, .chr 0x3B, .chr 0x09] ++ targetElems

/-- The code points of a string literal. -/
def cps (s : String) : List Nat := s.data.map Char.toNat

/-- A line of the documented format whose annotation is the chain `ⲥ → ϲ → c`. -/
def chainLine : GoString :=
  lit "2CA5 ;\t0063 ;\tMA\t#* ( ⲥ → ϲ → c ) COPTIC SMALL LETTER SIMA → LATIN SMALL LETTER C"

/-! ## Lemmas -/

theorem In_BasicLatin (rn : Nat) : In rn [BasicLatin] = decide (0x21 ≤ rn ∧ rn ≤ 0x7E) := by
  simp only [In, Is, BasicLatin, List.any_cons, List.any_nil, Bool.or_false, List.getLast?_singleton,
    List.head?_nil, isInRanges]
  by_cases h1 : rn ≤ 0x7E
  · by_cases h2 : rn < 0x21
    · simp [h1, h2]
    · simp [h1, h2]; omega
  · simp [h1]

theorem Repeat_zero_of_le (t : GoString) (h : t.length ≤ 8) :
    Repeat (lit "0") (8 - (t.length : Int)) = some (List.replicate (8 - t.length) 0x30) := by
  have h1 : ¬ (8 - (t.length : Int) < 0) := by omega
  have h2 : (8 - (t.length : Int)).toNat = 8 - t.length := by omega
  have h3 : lit "0" = [0x30] := by decide
  simp only [Repeat, h1, if_false, h2, h3]
  congr 1
  induction (8 - t.length) with
  | zero => rfl
  | succ n ih => simp [List.replicate_succ, ih]

theorem Repeat_zero_of_gt (t : GoString) (h : 8 < t.length) :
    Repeat (lit "0") (8 - (t.length : Int)) = none := by
  have h1 : (8 - (t.length : Int) < 0) := by omega
  simp [Repeat, h1]

theorem formatStep_of_le (acc t : GoString) (h : t.length ≤ 8) :
    formatStep acc t = some (acc ++ (lit "\\U" ++ List.replicate (8 - t.length) 0x30 ++ t)) := by
  simp [formatStep, Repeat_zero_of_le t h]

theorem formatStep_of_gt (acc t : GoString) (h : 8 < t.length) : formatStep acc t = none := by
  simp [formatStep, Repeat_zero_of_gt t h]

theorem foldlM_formatStep_of_le (toks : List GoString) :
    ∀ acc : GoString, (∀ t ∈ toks, t.length ≤ 8) →
      toks.foldlM formatStep acc
        = some (acc ++ (toks.map
            (fun t => lit "\\U" ++ List.replicate (8 - t.length) 0x30 ++ t)).flatten) := by
  induction toks with
  | nil => intro acc _; simp
  | cons t rest ih =>
    intro acc h
    have ht : t.length ≤ 8 := h t (List.mem_cons_self _ _)
    have hr : ∀ u ∈ rest, u.length ≤ 8 := fun u hu => h u (List.mem_cons_of_mem _ hu)
    simp only [List.foldlM_cons, formatStep_of_le acc t ht, Option.bind_eq_bind, Option.some_bind,
      ih _ hr, List.map_cons, List.flatten_cons, List.append_assoc]

theorem foldlM_formatStep_isSome (toks : List GoString) :
    ∀ acc : GoString, (toks.foldlM formatStep acc).isSome = true → ∀ t ∈ toks, t.length ≤ 8 := by
  induction toks with
  | nil => intro acc _ t ht; simp at ht
  | cons u rest ih =>
    intro acc h t ht
    by_cases hu : u.length ≤ 8
    · rw [List.foldlM_cons, formatStep_of_le acc u hu] at h
      rcases List.mem_cons.mp ht with rfl | hmem
      · exact hu
      · exact ih _ h t hmem
    · rw [List.foldlM_cons, formatStep_of_gt acc u (by omega)] at h
      simp at h

theorem pieces_length (toks : List GoString) (h : ∀ t ∈ toks, t.length ≤ 8) :
    ((toks.map (fun t => lit "\\U" ++ List.replicate (8 - t.length) 0x30 ++ t)).flatten).length
      = 10 * toks.length := by
  induction toks with
  | nil => rfl
  | cons t rest ih =>
    have ht : t.length ≤ 8 := h t (List.mem_cons_self _ _)
    have hr : ∀ u ∈ rest, u.length ≤ 8 := fun u hu => h u (List.mem_cons_of_mem _ hu)
    have h2 : (lit "\\U").length = 2 := by decide
    simp only [List.map_cons, List.flatten_cons, List.length_append, List.length_replicate, ih hr,
      h2, List.length_cons]
    omega

theorem decodeRune_ascii (b : Nat) (rest : GoString) (h : b < 0x80) :
    decodeRune (b :: rest) = (b, 1) := by
  simp [decodeRune, h]

theorem decodeSyms_ascii (s : GoString) : ∀ n, s.length ≤ n → (∀ b ∈ s, b < 0x80) →
    decodeSyms n s = s.map (fun b => ⟨b, [b]⟩) := by
  induction s with
  | nil => intro n _ _; cases n <;> rfl
  | cons b rest ih =>
    intro n hn h
    cases n with
    | zero => simp at hn
    | succ n =>
      have hb : b < 0x80 := h b (List.mem_cons_self _ _)
      simp only [decodeSyms, decodeRune_ascii b rest hb, List.take_succ_cons, List.take_zero,
        List.drop_succ_cons, List.drop_zero, List.map_cons]
      rw [ih n (by simpa using hn) (fun x hx => h x (List.mem_cons_of_mem _ hx))]

theorem runes_ascii (s : GoString) (h : ∀ b ∈ s, b < 0x80) : runes s = s := by
  simp [runes, symbols, decodeSyms_ascii s s.length (le_refl _) h, Function.comp_def]

theorem mem_of_mem_splitSpace (s : GoString) : ∀ t ∈ splitSpace s, ∀ b ∈ t, b ∈ s := by
  induction s with
  | nil => intro t ht b hb; simp [splitSpace] at ht; subst ht; simp at hb
  | cons a rest ih =>
    intro t ht b hb
    unfold splitSpace at ht
    split at ht
    · rcases List.mem_cons.mp ht with rfl | hmem
      · simp at hb
      · exact List.mem_cons_of_mem _ (ih t hmem b hb)
    · split at ht
      · rename_i u us heq
        rcases List.mem_cons.mp ht with rfl | hmem
        · rcases List.mem_cons.mp hb with rfl | hb'
          · exact List.mem_cons_self _ _
          · exact List.mem_cons_of_mem _ (ih u (by rw [heq]; exact List.mem_cons_self _ _) b hb')
        · exact List.mem_cons_of_mem _ (ih t (by rw [heq]; exact List.mem_cons_of_mem _ hmem) b hb)
      · simp at ht; subst ht; simp at hb; subst hb; exact List.mem_cons_self _ _

theorem GoMap.get_set_self (m : GoMap) (k v : GoString) : (m.set k v).get k = some v := by
  induction m with
  | nil => simp [GoMap.set, GoMap.get]
  | cons e rest ih =>
    obtain ⟨k', v'⟩ := e
    by_cases h : k' = k
    · simp [GoMap.set, GoMap.get, h]
    · simp [GoMap.set, GoMap.get, h, ih]

theorem GoMap.get_set_ne (m : GoMap) (k v k' : GoString) (h : k' ≠ k) :
    (m.set k v).get k' = m.get k' := by
  induction m with
  | nil => simp [GoMap.set, GoMap.get, Ne.symm h]
  | cons e rest ih =>
    obtain ⟨k1, v1⟩ := e
    by_cases h1 : k1 = k
    · subst h1
      simp [GoMap.set, GoMap.get, Ne.symm h]
    · by_cases h2 : k1 = k'
      · subst h2
        simp [GoMap.set, GoMap.get, h]
      · simp [GoMap.set, GoMap.get, h1, h2, ih]

theorem numSubexp_r : numSubexp r = 4 := by decide

theorem FindStringSubmatch_shape (txt : GoString) (ms : List GoString)
    (h : FindStringSubmatch r txt = some ms) :
    ∃ w s t f u, ms = [w, s, t, f, u] := by
  simp only [FindStringSubmatch, numSubexp_r, Option.map_eq_some'] at h
  obtain ⟨c, _, hc⟩ := h
  exact ⟨groupText c 0, groupText c 1, groupText c 2, groupText c 3, groupText c 4,
    by rw [← hc]; rfl⟩

theorem lineStep_of_nomatch (m : GoMap) (txt : GoString) (h : FindStringSubmatch r txt = none) :
    lineStep m txt = some m := by
  simp [lineStep, h]

theorem lineStep_of_rejected (m : GoMap) (txt w s t f u : GoString)
    (h : FindStringSubmatch r txt = some [w, s, t, f, u]) (ha : isAllowed f u = false) :
    lineStep m txt = some m := by
  simp [lineStep, h, ha]

theorem lineStep_of_allowed (m : GoMap) (txt w s t f u : GoString)
    (h : FindStringSubmatch r txt = some [w, s, t, f, u]) (ha : isAllowed f u = true) :
    lineStep m txt
      = (formatUnicodeIDs s).bind (fun k => (formatUnicodeIDs t).map (fun v => m.set k v)) := by
  simp only [lineStep, h]
  cases h1 : formatUnicodeIDs s <;> cases h2 : formatUnicodeIDs t <;> simp [ha, h1, h2]

theorem isAllowed_length_gt (f u : GoString) (h : (runes f).length > 1) :
    isAllowed f u = false := by
  simp [isAllowed, h]

theorem isAllowed_of_from_latin (f u : GoString)
    (h : (runes f).any (fun rn => In rn [BasicLatin]) = true) : isAllowed f u = false := by
  unfold isAllowed
  simp only [h, if_true]
  split <;> rfl

theorem isAllowed_target (f u : GoString) (h : isAllowed f u = true) :
    ∃ c ∈ runes u, (0x21 ≤ c ∧ c ≤ 0x7E) ∨ IsSpace c = true := by
  unfold isAllowed at h
  simp only at h
  split at h
  · cases h
  · split at h
    · cases h
    · rw [List.any_eq_true] at h
      obtain ⟨c, hc, hp⟩ := h
      refine ⟨c, hc, ?_⟩
      rw [In_BasicLatin] at hp
      simpa using hp

theorem lineStep_origin (m m' : GoMap) (txt : GoString) (h : lineStep m txt = some m')
    (k v : GoString) (hk : m'.get k = some v) :
    m.get k = some v ∨
      ∃ w s t f u, FindStringSubmatch r txt = some [w, s, t, f, u] ∧ isAllowed f u = true
        ∧ formatUnicodeIDs s = some k ∧ formatUnicodeIDs t = some v := by
  cases hm : FindStringSubmatch r txt with
  | none =>
    rw [lineStep_of_nomatch m txt hm] at h
    cases h; exact Or.inl hk
  | some ms =>
    obtain ⟨w, s, t, f, u, rfl⟩ := FindStringSubmatch_shape txt ms hm
    cases ha : isAllowed f u with
    | false =>
      rw [lineStep_of_rejected m txt w s t f u hm ha] at h
      cases h; exact Or.inl hk
    | true =>
      rw [lineStep_of_allowed m txt w s t f u hm ha] at h
      cases h1 : formatUnicodeIDs s with
      | none => simp [h1] at h
      | some k0 =>
        cases h2 : formatUnicodeIDs t with
        | none => simp [h1, h2] at h
        | some v0 =>
          simp only [h1, h2, Option.some_bind, Option.map_some', Option.some.injEq] at h
          subst h
          by_cases hkk : k = k0
          · subst hkk
            rw [GoMap.get_set_self] at hk
            cases hk
            exact Or.inr ⟨w, s, t, f, u, rfl, ha, h1, h2⟩
          · rw [GoMap.get_set_ne _ _ _ _ hkk] at hk
            exact Or.inl hk

theorem scanLines_of_nomatch (m0 : GoMap) (lines : List GoString)
    (h : ∀ txt ∈ lines, FindStringSubmatch r txt = none) : scanLines m0 lines = some m0 := by
  induction lines with
  | nil => rfl
  | cons txt rest ih =>
    simp only [scanLines, lineStep_of_nomatch m0 txt (h txt (List.mem_cons_self _ _))]
    exact ih (fun t ht => h t (List.mem_cons_of_mem _ ht))

theorem foldl_entryLine (es : List (GoString × GoString)) : ∀ acc : GoString,
    es.foldl (fun fileContent e => fileContent ++ entryLine e) acc
      = acc ++ (es.map entryLine).flatten := by
  induction es with
  | nil => intro acc; simp
  | cons e rest ih => intro acc; simp [List.foldl_cons, ih, List.append_assoc]

/-! ## Lemmas on the matcher -/

theorem matchRe_seq_cons (x y : Regex) (rest : List Regex) (s : List Sym) (c : Caps) (k : Cont) :
    matchRe (Regex.seq (x :: y :: rest)) s c k
      = matchRe x s c (fun s' c' => matchRe (Regex.seq (y :: rest)) s' c' k) := rfl

theorem matchRe_chr_hit (a : Nat) (s : List Sym) (c : Caps) (k : Cont) :
    matchRe (Regex.chr a) (sy a :: s) c k = k s c := by
  simp [matchRe, Regex.chr, inClass, sy]

theorem matchRe_chr_miss (a : Nat) (x : Sym) (s : List Sym) (c : Caps) (k : Cont)
    (h : x.rune ≠ a) : matchRe (Regex.chr a) (x :: s) c k = none := by
  simp only [matchRe, Regex.chr, inClass, List.any_cons, List.any_nil, Bool.or_false]
  have : (decide (a ≤ x.rune) && decide (x.rune ≤ a)) = false := by
    simp only [Bool.and_eq_false_imp, decide_eq_true_eq, decide_eq_false_iff_not]
    omega
  simp [this]

theorem matchRe_chr_nil (a : Nat) (c : Caps) (k : Cont) :
    matchRe (Regex.chr a) [] c k = none := rfl

theorem matchRe_capture (i : Nat) (x : Regex) (s : List Sym) (c : Caps) (k : Cont) :
    matchRe (.capture i x) s c k
      = matchRe x s (c.set (2 * i) (some s)) (fun s' c' => k s' (c'.set (2 * i + 1) (some s'))) :=
  rfl

theorem matchRe_star (x : Regex) (s : List Sym) (c : Caps) (k : Cont) :
    matchRe (.star x) s c k = loop (matchRe x) (s.length + 1) s c k := rfl

theorem matchRe_plus (x : Regex) (s : List Sym) (c : Caps) (k : Cont) :
    matchRe (.plus x) s c k
      = matchRe x s c (fun s' c' => loop (matchRe x) (s'.length + 1) s' c' k) := rfl

theorem loop_succ (body : List Sym → Caps → Cont → Option Caps) (n : Nat) (s : List Sym)
    (c : Caps) (k : Cont) :
    loop body (n + 1) s c k
      = match body s c (fun s' c' => if s'.length < s.length then loop body n s' c' k else none)
          with
        | some res => some res
        | none => k s c := rfl

theorem matchRe_cls_cons (rs : List (Nat × Nat)) (x : Sym) (s : List Sym) (c : Caps) (k : Cont) :
    matchRe (.cls rs) (x :: s) c k = if inClass rs x.rune then k s c else none := rfl

theorem star_cls_cons (rs : List (Nat × Nat)) (x : Sym) (s : List Sym) (c : Caps) (k : Cont)
    (h : inClass rs x.rune = true) :
    matchRe (.star (.cls rs)) (x :: s) c k
      = match matchRe (.star (.cls rs)) s c k with
        | some res => some res
        | none => k (x :: s) c := by
  rw [matchRe_star, matchRe_star, List.length_cons, loop_succ, matchRe_cls_cons, if_pos h]
  simp only [List.length_cons, Nat.lt_succ_self, if_true]

theorem star_cls_cons_some (rs : List (Nat × Nat)) (x : Sym) (s : List Sym) (c : Caps) (k : Cont)
    (res : Caps) (h : inClass rs x.rune = true)
    (hs : matchRe (.star (.cls rs)) s c k = some res) :
    matchRe (.star (.cls rs)) (x :: s) c k = some res := by
  rw [star_cls_cons rs x s c k h, hs]

theorem star_cls_cons_none (rs : List (Nat × Nat)) (x : Sym) (s : List Sym) (c : Caps) (k : Cont)
    (h : inClass rs x.rune = true)
    (hs : matchRe (.star (.cls rs)) s c k = none) :
    matchRe (.star (.cls rs)) (x :: s) c k = k (x :: s) c := by
  rw [star_cls_cons rs x s c k h, hs]

theorem star_cls_stop (rs : List (Nat × Nat)) (x : Sym) (s : List Sym) (c : Caps) (k : Cont)
    (h : inClass rs x.rune = false) :
    matchRe (.star (.cls rs)) (x :: s) c k = k (x :: s) c := by
  rw [matchRe_star, List.length_cons, loop_succ, matchRe_cls_cons, h]
  rfl

theorem star_cls_nil (rs : List (Nat × Nat)) (c : Caps) (k : Cont) :
    matchRe (.star (.cls rs)) [] c k = k [] c := rfl

theorem plus_cls_cons (rs : List (Nat × Nat)) (x : Sym) (s : List Sym) (c : Caps) (k : Cont)
    (h : inClass rs x.rune = true) :
    matchRe (.plus (.cls rs)) (x :: s) c k = matchRe (.star (.cls rs)) s c k := by
  rw [matchRe_plus, matchRe_cls_cons, if_pos h, matchRe_star]

/-- A greedy run over a class keeps the first success found further on. -/
theorem star_cls_append (rs : List (Nat × Nat)) (p u : List Sym) (c : Caps) (k : Cont)
    (res : Caps) (hp : ∀ x ∈ p, inClass rs x.rune = true)
    (hu : matchRe (.star (.cls rs)) u c k = some res) :
    matchRe (.star (.cls rs)) (p ++ u) c k = some res := by
  induction p with
  | nil => simpa using hu
  | cons x p ih =>
    exact star_cls_cons_some rs x (p ++ u) c k res (hp x (List.mem_cons_self _ _))
      (ih (fun y hy => hp y (List.mem_cons_of_mem _ hy)))

/-- A success of a greedy run over a class is a success of what follows on a later position. -/
theorem star_cls_sound (rs : List (Nat × Nat)) (s : List Sym) (c : Caps) (k : Cont) (res : Caps)
    (h : matchRe (.star (.cls rs)) s c k = some res) :
    ∃ t, t <:+ s ∧ k t c = some res := by
  induction s with
  | nil => rw [star_cls_nil] at h; exact ⟨[], List.suffix_refl _, h⟩
  | cons x s ih =>
    by_cases hx : inClass rs x.rune = true
    · cases hs : matchRe (.star (.cls rs)) s c k with
      | none =>
        rw [star_cls_cons_none rs x s c k hx hs] at h
        exact ⟨x :: s, List.suffix_refl _, h⟩
      | some res' =>
        rw [star_cls_cons_some rs x s c k res' hx hs] at h
        cases h
        obtain ⟨t, ht, hk⟩ := ih hs
        exact ⟨t, ht.trans (List.suffix_cons x s), hk⟩
    · simp only [Bool.not_eq_true] at hx
      rw [star_cls_stop rs x s c k hx] at h
      exact ⟨x :: s, List.suffix_refl _, h⟩

/-- A greedy run over a class succeeds when what follows succeeds after some run. -/
theorem star_cls_complete (rs : List (Nat × Nat)) (p u : List Sym) (c : Caps) (k : Cont)
    (hp : ∀ x ∈ p, inClass rs x.rune = true) (hu : (k u c).isSome = true) :
    (matchRe (.star (.cls rs)) (p ++ u) c k).isSome = true := by
  have hu' : (matchRe (.star (.cls rs)) u c k).isSome = true := by
    cases u with
    | nil => rw [star_cls_nil]; exact hu
    | cons y u =>
      by_cases hy : inClass rs y.rune = true
      · cases hs : matchRe (.star (.cls rs)) u c k with
        | none => rw [star_cls_cons_none rs y u c k hy hs]; exact hu
        | some res' => rw [star_cls_cons_some rs y u c k res' hy hs]; rfl
      · simp only [Bool.not_eq_true] at hy
        rw [star_cls_stop rs y u c k hy]; exact hu
  obtain ⟨res, hres⟩ := Option.isSome_iff_exists.mp hu'
  rw [star_cls_append rs p u c k res hp hres]; rfl

/-- When every success of what follows gives the same result, a greedy run gives that result. -/
theorem star_cls_value (rs : List (Nat × Nat)) (p u : List Sym) (c : Caps) (k : Cont) (v : Caps)
    (hp : ∀ x ∈ p, inClass rs x.rune = true) (hu : (k u c).isSome = true)
    (hv : ∀ t res, t <:+ p ++ u → k t c = some res → res = v) :
    matchRe (.star (.cls rs)) (p ++ u) c k = some v := by
  obtain ⟨res, hres⟩ := Option.isSome_iff_exists.mp (star_cls_complete rs p u c k hp hu)
  obtain ⟨t, ht, hk⟩ := star_cls_sound rs (p ++ u) c k res hres
  rw [hres, hv t res ht hk]

/-- A loop fails on an input with a suffix-closed property on which its body's continuations and
its exit fail. -/
theorem loop_none (Q : List Sym → Prop) (body : List Sym → Caps → Cont → Option Caps)
    (hbody : ∀ s c k, Q s → (∀ t c', Q t → k t c' = none) → body s c k = none) :
    ∀ (n : Nat) (s : List Sym) (c : Caps) (k : Cont), Q s → (∀ t c', Q t → k t c' = none) →
      loop body n s c k = none := by
  intro n
  induction n with
  | zero => intro s c k hs hk; exact hk s c hs
  | succ n ih =>
    intro s c k hs hk
    have h1 : body s c (fun s' c' => if s'.length < s.length then loop body n s' c' k else none)
        = none := by
      apply hbody s c _ hs
      intro t c' ht
      by_cases hlt : t.length < s.length
      · simp only [hlt, if_true]; exact ih t c' k ht hk
      · simp only [hlt, if_false]
    simp only [loop, h1]
    exact hk s c hs

theorem times_none (Q : List Sym → Prop) (body : List Sym → Caps → Cont → Option Caps)
    (hbody : ∀ s c k, Q s → (∀ t c', Q t → k t c' = none) → body s c k = none) :
    ∀ (n : Nat) (s : List Sym) (c : Caps) (k : Cont), Q s → (∀ t c', Q t → k t c' = none) →
      times body n s c k = none := by
  intro n
  induction n with
  | zero => intro s c k hs hk; exact hk s c hs
  | succ n ih =>
    intro s c k hs hk
    simp only [times]
    exact hbody s c _ hs (fun t c' ht => ih t c' k ht hk)

/-- An expression fails on an input with a suffix-closed property when what follows fails on
every input with the property. -/
theorem matchRe_none (Q : List Sym → Prop) (hQ : ∀ x s, Q (x :: s) → Q s) :
    ∀ (re : Regex) (s : List Sym) (c : Caps) (k : Cont), Q s → (∀ t c', Q t → k t c' = none) →
      matchRe re s c k = none := by
  intro re
  induction re with
  | empty => intro s c k hs hk; exact hk s c hs
  | cls rs =>
    intro s c k hs hk
    cases s with
    | nil => rfl
    | cons x s =>
      simp only [matchRe]
      split
      · exact hk s c (hQ x s hs)
      · rfl
  | cat a b iha ihb =>
    intro s c k hs hk
    simp only [matchRe]
    exact iha s c _ hs (fun t c' ht => ihb t c' k ht hk)
  | star x ih =>
    intro s c k hs hk
    simp only [matchRe]
    exact loop_none Q (matchRe x) ih _ s c k hs hk
  | plus x ih =>
    intro s c k hs hk
    simp only [matchRe]
    exact ih s c _ hs (fun t c' ht => loop_none Q (matchRe x) ih _ t c' k ht hk)
  | quest x ih =>
    intro s c k hs hk
    simp only [matchRe, ih s c k hs hk]
    exact hk s c hs
  | atLeast n x ih =>
    intro s c k hs hk
    simp only [matchRe]
    exact times_none Q (matchRe x) ih n s c _ hs
      (fun t c' ht => loop_none Q (matchRe x) ih _ t c' k ht hk)
  | capture i x ih =>
    intro s c k hs hk
    simp only [matchRe]
    exact ih s _ _ hs (fun t c' ht => hk t _ ht)

/-- An expression that must read the rune `a` fails on an input without it. -/
theorem matchRe_none_of_mustRead (a : Nat) :
    ∀ (re : Regex), mustRead a re = true → ∀ (s : List Sym) (c : Caps) (k : Cont),
      (∀ x ∈ s, x.rune ≠ a) → matchRe re s c k = none := by
  have hQ : ∀ (x : Sym) (s : List Sym), (∀ y ∈ x :: s, y.rune ≠ a) → (∀ y ∈ s, y.rune ≠ a) :=
    fun x s h y hy => h y (List.mem_cons_of_mem _ hy)
  intro re
  induction re with
  | empty => intro h; simp [mustRead] at h
  | cls rs =>
    intro h s c k hs
    simp only [mustRead, decide_eq_true_eq] at h
    subst h
    cases s with
    | nil => rfl
    | cons x s => exact matchRe_chr_miss a x s c k (hs x (List.mem_cons_self _ _))
  | cat x y ihx ihy =>
    intro h s c k hs
    simp only [mustRead, Bool.or_eq_true] at h
    simp only [matchRe]
    rcases h with h | h
    · exact ihx h s c _ hs
    · exact matchRe_none (fun s => ∀ x ∈ s, x.rune ≠ a) hQ x s c _ hs
        (fun t c' ht => ihy h t c' k ht)
  | star x _ => intro h; simp [mustRead] at h
  | plus x ih =>
    intro h s c k hs
    simp only [mustRead] at h
    simp only [matchRe]
    exact ih h s c _ hs
  | quest x _ => intro h; simp [mustRead] at h
  | atLeast n x _ => intro h; simp [mustRead] at h
  | capture i x ih =>
    intro h s c k hs
    simp only [mustRead] at h
    simp only [matchRe]
    exact ih h s _ _ hs

/-! ## The compiled pattern on a line of the documented format -/

theorem r_eq : r = Regex.seq rElems := by decide

theorem matchRe_chr_cons (a : Nat) (x : Sym) (s : List Sym) (c : Caps) (k : Cont) :
    matchRe (Regex.chr a) (x :: s) c k = if x.rune = a then k s c else none := by
  by_cases h : x.rune = a
  · obtain ⟨rn, bs⟩ := x
    simp only at h
    subst h
    simp [matchRe, Regex.chr, inClass]
  · rw [matchRe_chr_miss a x s c k h, if_neg h]

theorem star_dot_all (s : List Sym) (c : Caps) (h : ∀ x ∈ s, inClass dotRanges x.rune = true) :
    matchRe (.star (.cls dotRanges)) s c accept = some (c.set 1 (some [])) := by
  induction s with
  | nil => rfl
  | cons x s ih =>
    exact star_cls_cons_some dotRanges x s c accept _ (h x (List.mem_cons_self _ _))
      (ih (fun y hy => h y (List.mem_cons_of_mem _ hy)))

theorem plus_dot_all (s : List Sym) (c : Caps) (hne : s ≠ [])
    (h : ∀ x ∈ s, inClass dotRanges x.rune = true) :
    matchRe (.plus .anyNotNL) s c accept = some (c.set 1 (some [])) := by
  cases s with
  | nil => exact absurd rfl hne
  | cons x s =>
    rw [Regex.anyNotNL, plus_cls_cons dotRanges x s c accept (h x (List.mem_cons_self _ _))]
    exact star_dot_all s c (fun y hy => h y (List.mem_cons_of_mem _ hy))

/-- Every success of ` → .+` at the end of the pattern, on an input without a newline, closes
the match at the end of the input. -/
theorem arrow_tail_value (t : List Sym) (c res : Caps)
    (ht : ∀ x ∈ t, inClass dotRanges x.rune = true)
    (h : matchRe (Regex.seq [.chr 0x20, .chr 0x2192, .chr 0x20, .plus .anyNotNL]) t c accept
      = some res) :
    res = c.set 1 (some []) := by
  rw [matchRe_seq_cons] at h
  cases t with
  | nil => cases h
  | cons x1 t =>
    rw [matchRe_chr_cons] at h
    split at h
    · rw [matchRe_seq_cons] at h
      cases t with
      | nil => cases h
      | cons x2 t =>
        rw [matchRe_chr_cons] at h
        split at h
        · rw [matchRe_seq_cons] at h
          cases t with
          | nil => cases h
          | cons x3 t =>
            rw [matchRe_chr_cons] at h
            split at h
            · cases t with
              | nil => cases h
              | cons x4 t =>
                have h4 : ∀ y ∈ x4 :: t, inClass dotRanges y.rune = true := fun y hy =>
                  ht y (List.mem_cons_of_mem _ (List.mem_cons_of_mem _ (List.mem_cons_of_mem _ hy)))
                have := plus_dot_all (x4 :: t) c (by simp) h4
                simp only [Regex.seq] at h
                rw [this] at h
                cases h
                rfl
            · cases h
        · cases h
    · cases h

/-- The end of the pattern, `.+ → .+`, on two comments joined by an arrow. -/
theorem match_tail (n1 n2 : List Sym) (c : Caps) (h1 : n1 ≠ []) (h2 : n2 ≠ [])
    (hn1 : ∀ x ∈ n1, inClass dotRanges x.rune = true)
    (hn2 : ∀ x ∈ n2, inClass dotRanges x.rune = true) :
    matchRe (Regex.seq tailElems) (n1 ++ sy 0x20 :: sy 0x2192 :: sy 0x20 :: n2) c accept
      = some (c.set 1 (some [])) := by
  cases n1 with
  | nil => exact absurd rfl h1
  | cons x n1 =>
    have hx : inClass dotRanges x.rune = true := hn1 x (List.mem_cons_self _ _)
    have hn1' : ∀ y ∈ n1, inClass dotRanges y.rune = true :=
      fun y hy => hn1 y (List.mem_cons_of_mem _ hy)
    have hall : ∀ y ∈ n1 ++ sy 0x20 :: sy 0x2192 :: sy 0x20 :: n2,
        inClass dotRanges y.rune = true := by
      intro y hy
      rcases List.mem_append.mp hy with hy | hy
      · exact hn1' y hy
      · rcases List.mem_cons.mp hy with rfl | hy
        · decide
        · rcases List.mem_cons.mp hy with rfl | hy
          · decide
          · rcases List.mem_cons.mp hy with rfl | hy
            · decide
            · exact hn2 y hy
    simp only [tailElems]
    rw [matchRe_seq_cons, Regex.anyNotNL, List.cons_append, plus_cls_cons dotRanges x _ c _ hx]
    apply star_cls_value dotRanges n1 _ c _ _ hn1'
    · rw [matchRe_seq_cons, matchRe_chr_hit, matchRe_seq_cons, matchRe_chr_hit, matchRe_seq_cons,
        matchRe_chr_hit]
      simp only [Regex.seq]
      rw [← Regex.anyNotNL, plus_dot_all n2 c h2 hn2]
      rfl
    · intro t res ht hk
      exact arrow_tail_value t c res (fun y hy => hall y (ht.subset hy)) hk

/-- The pattern from ` (.+) \) ` on: group 4 is the last rendered character. -/
theorem match_close (cn : Nat) (names : List Sym) (c : Caps)
    (hcn : inClass dotRanges cn = true) (hnames : ∀ x ∈ names, x.rune ≠ 0x29)
    (htail : ∀ c', matchRe (Regex.seq tailElems) names c' accept = some (c'.set 1 (some []))) :
    matchRe (Regex.seq closeElems)
        (sy 0x20 :: sy cn :: sy 0x20 :: sy 0x29 :: sy 0x20 :: names) c accept
      = some (((c.set 8 (some (sy cn :: sy 0x20 :: sy 0x29 :: sy 0x20 :: names))).set 9
          (some (sy 0x20 :: sy 0x29 :: sy 0x20 :: names))).set 1 (some [])) := by
  have hQ : ∀ x ∈ sy 0x20 :: names, x.rune ≠ 0x29 := by
    intro x hx
    rcases List.mem_cons.mp hx with rfl | hx
    · decide
    · exact hnames x hx
  simp only [closeElems, tailElems, List.cons_append, List.nil_append]
  rw [matchRe_seq_cons, matchRe_chr_hit, matchRe_seq_cons, matchRe_capture, Regex.anyNotNL,
    plus_cls_cons dotRanges (sy cn) _ _ _ hcn]
  rw [star_cls_cons_none dotRanges (sy 0x20) _ _ _ (by decide)]
  · rw [matchRe_seq_cons, matchRe_chr_hit, matchRe_seq_cons, matchRe_chr_hit, matchRe_seq_cons,
      matchRe_chr_hit]
    exact htail _
  · rw [star_cls_cons_none dotRanges (sy 0x29) _ _ _ (by decide)]
    · rw [matchRe_seq_cons, matchRe_chr_miss _ _ _ _ _ (by decide)]
    · apply matchRe_none (fun s => ∀ x ∈ s, x.rune ≠ 0x29)
        (fun x s h y hy => h y (List.mem_cons_of_mem _ hy)) _ _ _ _ hQ
      intro t c' ht
      exact matchRe_none_of_mustRead 0x29 _ (by decide) t _ _ ht

theorem matchRe_seq_cons' (x : Regex) (ys : List Regex) (s : List Sym) (c : Caps) (k : Cont)
    (h : ys ≠ []) :
    matchRe (Regex.seq (x :: ys)) s c k
      = matchRe x s c (fun s' c' => matchRe (Regex.seq ys) s' c' k) := by
  cases ys with
  | nil => exact absurd rfl h
  | cons y ys => rfl

theorem noClose_tail (x : Sym) (s : List Sym) (h : ∀ y ∈ x :: s, y.rune ≠ 0x29) :
    ∀ y ∈ s, y.rune ≠ 0x29 :=
  fun y hy => h y (List.mem_cons_of_mem _ hy)

/-- What follows the starred group fails on an input without `)`. -/
theorem close_none (t : List Sym) (c : Caps) (k : Cont) (ht : ∀ x ∈ t, x.rune ≠ 0x29) :
    matchRe (Regex.seq closeElems) t c k = none :=
  matchRe_none_of_mustRead 0x29 _ (by decide) t c k ht

/-- The starred group ` .+ →` cannot be entered before the last rendered character: nothing
after it would hold the `)`. -/
theorem link_none (cn : Nat) (names : List Sym) (c : Caps) (k : Cont)
    (hcn : inClass dotRanges cn = true) (hnames : ∀ x ∈ names, x.rune ≠ 0x29)
    (hk : ∀ t c', (∀ x ∈ t, x.rune ≠ 0x29) → k t c' = none) :
    matchRe linkRe (sy 0x20 :: sy cn :: sy 0x20 :: sy 0x29 :: sy 0x20 :: names) c k = none := by
  have hQ : ∀ x ∈ sy 0x20 :: names, x.rune ≠ 0x29 := by
    intro x hx
    rcases List.mem_cons.mp hx with rfl | hx
    · decide
    · exact hnames x hx
  rw [linkRe, matchRe_seq_cons, matchRe_chr_hit, matchRe_seq_cons, Regex.anyNotNL,
    plus_cls_cons dotRanges (sy cn) _ _ _ hcn]
  rw [star_cls_cons_none dotRanges (sy 0x20) _ _ _ (by decide)]
  · rw [matchRe_seq_cons, matchRe_chr_hit]
    exact matchRe_chr_miss _ _ _ _ _ (by decide)
  · rw [star_cls_cons_none dotRanges (sy 0x29) _ _ _ (by decide)]
    · rw [matchRe_seq_cons, matchRe_chr_miss _ _ _ _ _ (by decide)]
    · apply matchRe_none (fun s => ∀ x ∈ s, x.rune ≠ 0x29) noClose_tail _ _ _ _ hQ
      intro t c' ht
      exact matchRe_none (fun s => ∀ x ∈ s, x.rune ≠ 0x29) noClose_tail _ t c' _ ht hk

/-- The pattern from the arrow after group 3 on, when only the last rendered character is
left before the `)`. -/
theorem match_arrow (cn : Nat) (names : List Sym) (c : Caps)
    (hcn : inClass dotRanges cn = true) (hnames : ∀ x ∈ names, x.rune ≠ 0x29)
    (htail : ∀ c', matchRe (Regex.seq tailElems) names c' accept = some (c'.set 1 (some []))) :
    matchRe (Regex.seq arrowElems)
        (sy 0x20 :: sy 0x2192 :: sy 0x20 :: sy cn :: sy 0x20 :: sy 0x29 :: sy 0x20 :: names)
        c accept
      = some (((c.set 8 (some (sy cn :: sy 0x20 :: sy 0x29 :: sy 0x20 :: names))).set 9
          (some (sy 0x20 :: sy 0x29 :: sy 0x20 :: names))).set 1 (some [])) := by
  have hlink : ∀ k : Cont, (∀ t c', (∀ x ∈ t, x.rune ≠ 0x29) → k t c' = none) →
      matchRe linkRe (sy 0x20 :: sy cn :: sy 0x20 :: sy 0x29 :: sy 0x20 :: names) c k = none :=
    fun k hk => link_none cn names c k hcn hnames hk
  simp only [arrowElems, List.cons_append, List.nil_append]
  rw [matchRe_seq_cons, matchRe_chr_hit, matchRe_seq_cons, matchRe_chr_hit,
    matchRe_seq_cons' _ _ _ _ _ (by decide), matchRe_star, loop_succ, hlink]
  · exact match_close cn names c hcn hnames htail
  · intro t c' ht
    by_cases hlt : t.length
        < (sy 0x20 :: sy cn :: sy 0x20 :: sy 0x29 :: sy 0x20 :: names).length
    · rw [if_pos hlt]
      apply loop_none (fun s => ∀ x ∈ s, x.rune ≠ 0x29) (matchRe linkRe)
        (matchRe_none (fun s => ∀ x ∈ s, x.rune ≠ 0x29) noClose_tail linkRe) _ t c' _ ht
      intro u c'' hu
      exact close_none u c'' accept hu
    · rw [if_neg hlt]

/-- The pattern from the arrow on fails unless the input starts with space, arrow. -/
theorem arrow_start_none (x y : Sym) (s : List Sym) (c : Caps) (k : Cont)
    (h : ¬ (x.rune = 0x20 ∧ y.rune = 0x2192)) :
    matchRe (Regex.seq arrowElems) (x :: y :: s) c k = none := by
  simp only [arrowElems, List.cons_append, List.nil_append]
  rw [matchRe_seq_cons, matchRe_chr_cons]
  split
  · rename_i hx
    rw [matchRe_seq_cons, matchRe_chr_cons]
    split
    · rename_i hy
      exact absurd ⟨hx, hy⟩ h
    · rfl
  · rfl

/-- The pattern from group 3 on: the greedy group 3 runs up to the last arrow before the `)`,
so it holds everything before the last rendered character. -/
theorem match_chain (p : List Sym) (cn : Nat) (names : List Sym) (c : Caps)
    (hp : p ≠ []) (hpdot : ∀ x ∈ p, inClass dotRanges x.rune = true)
    (hcn : inClass dotRanges cn = true) (hcn' : cn ≠ 0x2192)
    (hnames : ∀ x ∈ names, x.rune ≠ 0x29)
    (htail : ∀ c', matchRe (Regex.seq tailElems) names c' accept = some (c'.set 1 (some []))) :
    matchRe (Regex.seq chainElems)
        (p ++ sy 0x20 :: sy 0x2192 :: sy 0x20 :: sy cn :: sy 0x20 :: sy 0x29 :: sy 0x20 :: names)
        c accept
      = some (((((c.set 6 (some (p ++ sy 0x20 :: sy 0x2192 :: sy 0x20 :: sy cn :: sy 0x20
            :: sy 0x29 :: sy 0x20 :: names))).set 7
          (some (sy 0x20 :: sy 0x2192 :: sy 0x20 :: sy cn :: sy 0x20 :: sy 0x29 :: sy 0x20
            :: names))).set 8
          (some (sy cn :: sy 0x20 :: sy 0x29 :: sy 0x20 :: names))).set 9
          (some (sy 0x20 :: sy 0x29 :: sy 0x20 :: names))).set 1 (some [])) := by
  have hQ : ∀ x ∈ sy 0x20 :: names, x.rune ≠ 0x29 := by
    intro x hx
    rcases List.mem_cons.mp hx with rfl | hx
    · decide
    · exact hnames x hx
  cases p with
  | nil => exact absurd rfl hp
  | cons x p =>
    have hx : inClass dotRanges x.rune = true := hpdot x (List.mem_cons_self _ _)
    have hp' : ∀ y ∈ p, inClass dotRanges y.rune = true :=
      fun y hy => hpdot y (List.mem_cons_of_mem _ hy)
    rw [chainElems, matchRe_seq_cons' _ _ _ _ _ (by decide), matchRe_capture, Regex.anyNotNL,
      List.cons_append, plus_cls_cons dotRanges x _ _ _ hx]
    apply star_cls_append dotRanges p _ _ _ _ hp'
    rw [star_cls_cons_none dotRanges (sy 0x20) _ _ _ (by decide)]
    · exact match_arrow cn names _ hcn hnames htail
    · rw [star_cls_cons_none dotRanges (sy 0x2192) _ _ _ (by decide)]
      · exact arrow_start_none _ _ _ _ _ (by decide)
      · rw [star_cls_cons_none dotRanges (sy 0x20) _ _ _ (by decide)]
        · exact arrow_start_none _ _ _ _ _ (fun h => hcn' h.2)
        · rw [star_cls_cons_none dotRanges (sy cn) _ _ _ hcn]
          · exact arrow_start_none _ _ _ _ _ (fun h => absurd h.2 (by decide))
          · rw [star_cls_cons_none dotRanges (sy 0x20) _ _ _ (by decide)]
            · exact arrow_start_none _ _ _ _ _ (by decide)
            · rw [star_cls_cons_none dotRanges (sy 0x29) _ _ _ (by decide)]
              · exact arrow_start_none _ _ _ _ _ (by decide)
              · apply matchRe_none (fun s => ∀ x ∈ s, x.rune ≠ 0x29) noClose_tail _ _ _ _ hQ
                intro t c' ht
                exact matchRe_none_of_mustRead 0x29 _ (by decide) t _ _ ht

theorem matchRe_cat (a b : Regex) (s : List Sym) (c : Caps) (k : Cont) :
    matchRe (.cat a b) s c k = matchRe a s c (fun s' c' => matchRe b s' c' k) := rfl

theorem matchRe_quest (x : Regex) (s : List Sym) (c : Caps) (k : Cont) :
    matchRe (.quest x) s c k
      = match matchRe x s c k with
        | some res => some res
        | none => k s c := rfl

/-- The pattern from the category on: two or more letters, tab, `#`, an optional `*`, ` ( `. -/
theorem match_category (category : List Sym) (starred : Bool) (rest : List Sym) (c v : Caps)
    (hlen : 2 ≤ category.length) (hcat : ∀ x ∈ category, inClass letterRanges x.rune = true)
    (hnext : matchRe (Regex.seq chainElems) rest c accept = some v) :
    matchRe (Regex.seq categoryElems)
        (category ++ sy 0x09 :: sy 0x23 :: ((if starred then [sy 0x2A] else [])
          ++ sy 0x20 :: sy 0x28 :: sy 0x20 :: rest)) c accept
      = some v := by
  match category, hlen, hcat with
  | a :: b :: more, _, hcat =>
    have ha : inClass letterRanges a.rune = true := hcat a (List.mem_cons_self _ _)
    have hb : inClass letterRanges b.rune = true :=
      hcat b (List.mem_cons_of_mem _ (List.mem_cons_self _ _))
    have hmore : ∀ y ∈ more, inClass letterRanges y.rune = true :=
      fun y hy => hcat y (List.mem_cons_of_mem _ (List.mem_cons_of_mem _ hy))
    rw [categoryElems, List.cons_append, matchRe_seq_cons' _ _ _ _ _ (by decide), matchRe_cat,
      List.cons_append, matchRe_cls_cons, if_pos ha, List.cons_append,
      plus_cls_cons letterRanges b _ _ _ hb]
    apply star_cls_append letterRanges more _ _ _ _ hmore
    rw [star_cls_stop letterRanges (sy 0x09) _ _ _ (by decide)]
    simp only [List.cons_append, List.nil_append]
    rw [matchRe_seq_cons, matchRe_chr_hit, matchRe_seq_cons, matchRe_chr_hit, matchRe_seq_cons,
      matchRe_quest]
    have hopen : matchRe (Regex.seq (Regex.chr 0x20 :: Regex.chr 0x28 :: Regex.chr 0x20
          :: chainElems)) (sy 0x20 :: sy 0x28 :: sy 0x20 :: rest) c accept = some v := by
      rw [matchRe_seq_cons, matchRe_chr_hit, matchRe_seq_cons, matchRe_chr_hit,
        matchRe_seq_cons' _ _ _ _ _ (by decide), matchRe_chr_hit]
      exact hnext
    cases starred with
    | true =>
      simp only [if_true, List.cons_append, List.nil_append]
      rw [matchRe_chr_hit, hopen]
    | false =>
      simp only [Bool.false_eq_true, if_false, List.nil_append]
      rw [matchRe_chr_miss _ _ _ _ _ (by decide)]
      exact hopen

/-- A round of the group-2 loop that starts on a rune outside the class consumes nothing, so the
loop exits there. -/
theorem loop_group2_stop (n : Nat) (x : Sym) (s : List Sym) (c : Caps) (k : Cont)
    (hx : inClass idRanges x.rune = false) :
    loop (matchRe (.capture 2 (.star (.cls idRanges)))) n (x :: s) c k = k (x :: s) c := by
  cases n with
  | zero => rfl
  | succ n =>
    rw [loop_succ, matchRe_capture, star_cls_stop idRanges x s _ _ hx, if_neg (Nat.lt_irrefl _)]

/-- A further round of the group-2 loop over the space before the `;` leads nowhere. -/
theorem loop_group2_space (n : Nat) (x : Sym) (s : List Sym) (c : Caps) (k : Cont)
    (hx : inClass idRanges x.rune = false) (hk : ∀ c', k (x :: s) c' = none) :
    loop (matchRe (.capture 2 (.star (.cls idRanges)))) (n + 1) (sy 0x20 :: x :: s) c k
      = k (sy 0x20 :: x :: s) c := by
  rw [loop_succ, matchRe_capture, star_cls_cons_none idRanges (sy 0x20) _ _ _ (by decide)]
  · rw [if_neg (Nat.lt_irrefl _)]
  · rw [star_cls_stop idRanges x s _ _ hx, if_pos (by simp), loop_group2_stop n x s _ k hx]
    exact hk _

/-- The pattern from group 2 on: group 2 is the whole target ID field. -/
theorem match_target (ids2 rest : List Sym) (c v : Caps)
    (hids : ∀ x ∈ ids2, inClass idRanges x.rune = true)
    (hnext : matchRe (Regex.seq categoryElems) rest
        ((c.set 4 (some (ids2 ++ sy 0x20 :: sy 0x3B :: sy 0x09 :: rest))).set 5
          (some (sy 0x20 :: sy 0x3B :: sy 0x09 :: rest))) accept = some v) :
    matchRe (Regex.seq targetElems) (ids2 ++ sy 0x20 :: sy 0x3B :: sy 0x09 :: rest) c accept
      = some v := by
  have hsemi : ∀ c', matchRe (Regex.seq (Regex.chr 0x20 :: Regex.chr 0x3B :: Regex.chr 0x09
        :: categoryElems)) (sy 0x3B :: sy 0x09 :: rest) c' accept = none := by
    intro c'
    rw [matchRe_seq_cons, matchRe_chr_miss _ _ _ _ _ (by decide)]
  rw [targetElems, List.cons_append, matchRe_seq_cons' _ _ _ _ _ (by decide), matchRe_plus,
    matchRe_capture]
  apply star_cls_append idRanges ids2 _ _ _ _ hids
  rw [star_cls_cons_none idRanges (sy 0x20) _ _ _ (by decide)]
  · simp only [List.length_cons, List.cons_append, List.nil_append]
    rw [loop_group2_space _ (sy 0x3B) _ _ _ (by decide) hsemi, matchRe_seq_cons, matchRe_chr_hit,
      matchRe_seq_cons, matchRe_chr_hit, matchRe_seq_cons' _ _ _ _ _ (by decide),
      matchRe_chr_hit]
    exact hnext
  · rw [star_cls_stop idRanges (sy 0x3B) _ _ _ (by decide)]
    simp only [List.cons_append, List.nil_append]
    rw [loop_group2_stop _ (sy 0x3B) _ _ _ (by decide)]
    exact hsemi _

/-- The whole pattern from the start of the line: group 1 is the whole source ID field. -/
theorem match_source (ids1 rest : List Sym) (c v : Caps)
    (hids : ∀ x ∈ ids1, inClass idRanges x.rune = true)
    (hnext : matchRe (Regex.seq targetElems) rest
        ((c.set 2 (some (ids1 ++ sy 0x20 :: sy 0x3B :: sy 0x09 :: rest))).set 3
          (some (sy 0x20 :: sy 0x3B :: sy 0x09 :: rest))) accept = some v) :
    matchRe (Regex.seq rElems) (ids1 ++ sy 0x20 :: sy 0x3B :: sy 0x09 :: rest) c accept
      = some v := by
  rw [rElems, List.cons_append, matchRe_seq_cons' _ _ _ _ _ (by decide), matchRe_capture]
  apply star_cls_append idRanges ids1 _ _ _ _ hids
  rw [star_cls_cons_none idRanges (sy 0x20) _ _ _ (by decide)]
  · simp only [List.cons_append, List.nil_append]
    rw [matchRe_seq_cons, matchRe_chr_hit, matchRe_seq_cons, matchRe_chr_hit,
      matchRe_seq_cons' _ _ _ _ _ (by decide), matchRe_chr_hit]
    exact hnext
  · rw [star_cls_stop idRanges (sy 0x3B) _ _ _ (by decide)]
    simp only [List.cons_append, List.nil_append]
    rw [matchRe_seq_cons, matchRe_chr_miss _ _ _ _ _ (by decide)]

/-! ## Decoding a text and reading the groups -/

theorem decodeRune_encodeRune (c : Nat) (rest : GoString) (h : isScalar c) :
    decodeRune (encodeRune c ++ rest) = (c, (encodeRune c).length) := by
  unfold isScalar at h
  unfold encodeRune
  by_cases h1 : c < 0x80
  · simp [h1, decodeRune]
  · by_cases h2 : c < 0x800
    · simp only [h1, h2, if_false, if_true, List.cons_append, List.nil_append, decodeRune]
      have a1 : ¬ (0xC0 + c / 64 < 0x80) := by omega
      have a2 : ¬ (0xC0 + c / 64 < 0xC2) := by omega
      have a3 : (0xC0 + c / 64 < 0xE0) := by omega
      have a4 : isCont (0x80 + c % 64) = true := by simp [isCont]; omega
      simp only [a1, a2, a3, a4, if_true, if_false, List.length_cons, List.length_nil]
      congr 1
      omega
    · have h3 : ¬ ((0xD800 ≤ c ∧ c ≤ 0xDFFF) ∨ 0x10FFFF < c) := by omega
      by_cases h4 : c < 0x10000
      · simp only [h1, h2, h3, h4, if_false, if_true, List.cons_append, List.nil_append, decodeRune]
        have a1 : ¬ (0xE0 + c / 4096 < 0x80) := by omega
        have a2 : ¬ (0xE0 + c / 4096 < 0xC2) := by omega
        have a3 : ¬ (0xE0 + c / 4096 < 0xE0) := by omega
        have a4 : (0xE0 + c / 4096 < 0xF0) := by omega
        have a5 : isCont (0x80 + c % 64) = true := by simp [isCont]; omega
        have a6 : ((if 0xE0 + c / 4096 = 0xE0 then 0xA0 else 0x80) ≤ 0x80 + c / 64 % 64
            ∧ 0x80 + c / 64 % 64 ≤ (if 0xE0 + c / 4096 = 0xED then 0x9F else 0xBF)
            ∧ isCont (0x80 + c % 64) = true) := by
          refine ⟨?_, ?_, a5⟩
          · split <;> omega
          · split <;> omega
        simp only [a1, a2, a3, a4, a6, if_true, if_false, List.length_cons, List.length_nil,
          and_self]
        congr 1
        omega
      · simp only [h1, h2, h3, h4, if_false, List.cons_append, List.nil_append, decodeRune]
        have a1 : ¬ (0xF0 + c / 262144 < 0x80) := by omega
        have a2 : ¬ (0xF0 + c / 262144 < 0xC2) := by omega
        have a3 : ¬ (0xF0 + c / 262144 < 0xE0) := by omega
        have a4 : ¬ (0xF0 + c / 262144 < 0xF0) := by omega
        have a4' : (0xF0 + c / 262144 < 0xF5) := by omega
        have a5 : isCont (0x80 + c % 64) = true := by simp [isCont]; omega
        have a5' : isCont (0x80 + c / 64 % 64) = true := by simp [isCont]; omega
        have a6 : ((if 0xF0 + c / 262144 = 0xF0 then 0x90 else 0x80) ≤ 0x80 + c / 4096 % 64
            ∧ 0x80 + c / 4096 % 64 ≤ (if 0xF0 + c / 262144 = 0xF4 then 0x8F else 0xBF)
            ∧ isCont (0x80 + c / 64 % 64) = true ∧ isCont (0x80 + c % 64) = true) := by
          refine ⟨?_, ?_, a5', a5⟩
          · split <;> omega
          · split <;> omega
        simp only [a1, a2, a3, a4, a4', a6, if_true, if_false, List.length_cons, List.length_nil,
          and_self]
        congr 1
        omega

theorem encodeRune_ne_nil (c : Nat) : encodeRune c ≠ [] := by
  unfold encodeRune
  split
  · simp
  · split
    · simp
    · split
      · simp
      · split <;> simp

theorem decodeSyms_text (cps : List Nat) : ∀ n, cps.length ≤ n → (∀ c ∈ cps, isScalar c) →
    decodeSyms n (text cps) = cps.map sy := by
  induction cps with
  | nil => intro n _ _; cases n <;> rfl
  | cons c cps ih =>
    intro n hn h
    cases n with
    | zero => simp at hn
    | succ m =>
      have hc : isScalar c := h c (List.mem_cons_self _ _)
      have htext : text (c :: cps) = encodeRune c ++ text cps := by
        simp [text, List.flatMap_cons]
      have hdec := decodeRune_encodeRune c (text cps) hc
      rw [htext]
      cases henc : encodeRune c with
      | nil => exact absurd henc (encodeRune_ne_nil c)
      | cons b bs =>
        rw [henc] at hdec
        simp only [List.cons_append] at hdec ⊢
        simp only [decodeSyms, hdec, List.map_cons]
        rw [← List.cons_append, List.take_left', List.drop_left']
        · rw [ih m (by simpa using hn) (fun x hx => h x (List.mem_cons_of_mem _ hx))]
          simp [sy, henc]
        · rfl
        · rfl

theorem length_le_text (cps : List Nat) : cps.length ≤ (text cps).length := by
  induction cps with
  | nil => simp [text]
  | cons c cps ih =>
    have h1 : text (c :: cps) = encodeRune c ++ text cps := by simp [text, List.flatMap_cons]
    have h2 : 1 ≤ (encodeRune c).length := by
      cases h : encodeRune c with
      | nil => exact absurd h (encodeRune_ne_nil c)
      | cons b bs => simp
    rw [h1, List.length_append, List.length_cons]
    omega

/-- The decoded positions of the text of scalar values are those values. -/
theorem symbols_text (cps : List Nat) (h : ∀ c ∈ cps, isScalar c) :
    symbols (text cps) = cps.map sy :=
  decodeSyms_text cps _ (length_le_text cps) h

theorem runes_text (cps : List Nat) (h : ∀ c ∈ cps, isScalar c) : runes (text cps) = cps := by
  rw [runes, symbols_text cps h, List.map_map]
  simp [Function.comp_def, sy]

theorem bytes_map_sy (cps : List Nat) : ((cps.map sy).map Sym.bytes).flatten = text cps := by
  rw [List.map_map]
  rfl

theorem slice_append (p b : List Sym) : slice (p ++ b) b = (p.map Sym.bytes).flatten := by
  simp [slice]

theorem slice_nil (a : List Sym) : slice a [] = (a.map Sym.bytes).flatten := by
  simp [slice]

theorem slice_cons (x : Sym) (b : List Sym) : slice (x :: b) b = x.bytes := by
  simp [slice]

theorem searchFrom_of_match (re : Regex) (ncap : Nat) (s : List Sym) (res : Caps)
    (h : matchRe re s ((List.replicate ncap none).set 0 (some s)) accept = some res) :
    searchFrom re ncap s = some res := by
  cases s with
  | nil => exact h
  | cons x s => simp only [searchFrom, h]

theorem chainCps_ne_nil (front : List Nat) (h : front ≠ []) : chainCps front ≠ [] := by
  match front, h with
  | [c], _ => simp [chainCps]
  | c :: d :: rest, _ => simp [chainCps]

theorem chainCps_snoc (front : List Nat) (cn : Nat) (h : front ≠ []) :
    chainCps (front ++ [cn]) = chainCps front ++ [0x20, 0x2192, 0x20, cn] := by
  induction front with
  | nil => exact absurd rfl h
  | cons c rest ih =>
    cases rest with
    | nil => rfl
    | cons d rest =>
      have := ih (by simp)
      show c :: 0x20 :: 0x2192 :: 0x20 :: chainCps (d :: rest ++ [cn]) = _
      rw [this]
      rfl

theorem mem_chainCps (front : List Nat) (y : Nat) (hy : y ∈ chainCps front) :
    y ∈ front ∨ y = 0x20 ∨ y = 0x2192 := by
  induction front with
  | nil => simp [chainCps] at hy
  | cons c rest ih =>
    cases rest with
    | nil => simp only [chainCps, List.mem_singleton] at hy; subst hy; simp
    | cons d rest =>
      simp only [chainCps, List.mem_cons] at hy ih ⊢
      rcases hy with h | h | h | h | h
      · exact Or.inl (Or.inl h)
      · exact Or.inr (Or.inl h)
      · exact Or.inr (Or.inr h)
      · exact Or.inr (Or.inl h)
      · rcases ih h with (h | h) | h | h
        · exact Or.inl (Or.inr (Or.inl h))
        · exact Or.inl (Or.inr (Or.inr h))
        · exact Or.inr (Or.inl h)
        · exact Or.inr (Or.inr h)

theorem length_chainCps (front : List Nat) (h : 2 ≤ front.length) : 1 < (chainCps front).length := by
  match front, h with
  | c :: d :: rest, _ => simp [chainCps]

theorem isScalar_of_idRanges (c : Nat) (h : inClass idRanges c = true) : isScalar c := by
  simp only [inClass, idRanges, List.any_cons, List.any_nil, Bool.or_false, Bool.or_eq_true,
    Bool.and_eq_true, decide_eq_true_eq] at h
  unfold isScalar
  omega

theorem isScalar_of_letterRanges (c : Nat) (h : inClass letterRanges c = true) : isScalar c := by
  simp only [inClass, letterRanges, List.any_cons, List.any_nil, Bool.or_false, Bool.or_eq_true,
    Bool.and_eq_true, decide_eq_true_eq] at h
  unfold isScalar
  omega

theorem inClass_dot (c : Nat) (h : isScalar c) (hnl : c ≠ 0x0A) : inClass dotRanges c = true := by
  simp only [inClass, dotRanges, List.any_cons, List.any_nil, Bool.or_false, Bool.or_eq_true,
    Bool.and_eq_true, decide_eq_true_eq]
  unfold isScalar at h
  omega

theorem forall_map_sy (P : Nat → Prop) (cps : List Nat) (h : ∀ c ∈ cps, P c) :
    ∀ x ∈ cps.map sy, P x.rune := by
  intro x hx
  obtain ⟨c, hc, rfl⟩ := List.mem_map.mp hx
  exact h c hc

/-- The capture slots after the pattern has matched a whole line of the documented format,
given by the positions where the fields start and end. -/
theorem match_line (ids1 ids2 category : List Sym) (starred : Bool) (p : List Sym) (cn : Nat)
    (n1 n2 : List Sym) (c : Caps)
    (hids1 : ∀ x ∈ ids1, inClass idRanges x.rune = true)
    (hids2 : ∀ x ∈ ids2, inClass idRanges x.rune = true)
    (hlen : 2 ≤ category.length) (hcat : ∀ x ∈ category, inClass letterRanges x.rune = true)
    (hp : p ≠ []) (hpdot : ∀ x ∈ p, inClass dotRanges x.rune = true)
    (hcn : inClass dotRanges cn = true) (hcn' : cn ≠ 0x2192)
    (h1 : n1 ≠ []) (h2 : n2 ≠ [])
    (hn1 : ∀ x ∈ n1, inClass dotRanges x.rune = true ∧ x.rune ≠ 0x29)
    (hn2 : ∀ x ∈ n2, inClass dotRanges x.rune = true ∧ x.rune ≠ 0x29) :
    ∃ s3 s4 s5 s6 s7 s8 s9,
      s9 = sy 0x20 :: sy 0x29 :: sy 0x20 :: (n1 ++ sy 0x20 :: sy 0x2192 :: sy 0x20 :: n2)
      ∧ s8 = sy cn :: s9
      ∧ s7 = sy 0x20 :: sy 0x2192 :: sy 0x20 :: s8
      ∧ s6 = p ++ s7
      ∧ s5 = sy 0x20 :: sy 0x3B :: sy 0x09 :: (category ++ sy 0x09 :: sy 0x23
              :: ((if starred then [sy 0x2A] else []) ++ sy 0x20 :: sy 0x28 :: sy 0x20 :: s6))
      ∧ s4 = ids2 ++ s5
      ∧ s3 = sy 0x20 :: sy 0x3B :: sy 0x09 :: s4
      ∧ matchRe r (ids1 ++ s3) c accept
          = some ((((((((((c.set 2 (some (ids1 ++ s3))).set 3 (some s3)).set 4 (some s4)).set 5
              (some s5)).set 6 (some s6)).set 7 (some s7)).set 8 (some s8)).set 9
              (some s9)).set 1 (some []))) := by
  refine ⟨_, _, _, _, _, _, _, rfl, rfl, rfl, rfl, rfl, rfl, rfl, ?_⟩
  have hnames : ∀ x ∈ n1 ++ sy 0x20 :: sy 0x2192 :: sy 0x20 :: n2, x.rune ≠ 0x29 := by
    intro x hx
    rcases List.mem_append.mp hx with hx | hx
    · exact (hn1 x hx).2
    · rcases List.mem_cons.mp hx with rfl | hx
      · decide
      · rcases List.mem_cons.mp hx with rfl | hx
        · decide
        · rcases List.mem_cons.mp hx with rfl | hx
          · decide
          · exact (hn2 x hx).2
  rw [r_eq]
  apply match_source ids1 _ c _ hids1
  apply match_target ids2 _ _ _ hids2
  apply match_category category starred _ _ _ hlen hcat
  exact match_chain p cn _ _ hp hpdot hcn hcn' hnames
    (fun c' => match_tail n1 n2 c' h1 h2 (fun x hx => (hn1 x hx).1) (fun x hx => (hn2 x hx).1))

theorem upstreamLine_map_sy (sourceIDs targetIDs category : List Nat) (starred : Bool)
    (front : List Nat) (last : Nat) (comment1 comment2 : List Nat) (hfront : front ≠ []) :
    (upstreamLine sourceIDs targetIDs category starred (front ++ [last]) comment1 comment2).map sy
      = sourceIDs.map sy ++ sy 0x20 :: sy 0x3B :: sy 0x09 :: (targetIDs.map sy ++
          sy 0x20 :: sy 0x3B :: sy 0x09 :: (category.map sy ++ sy 0x09 :: sy 0x23
            :: ((if starred then [sy 0x2A] else []) ++ sy 0x20 :: sy 0x28 :: sy 0x20
              :: ((chainCps front).map sy ++ sy 0x20 :: sy 0x2192 :: sy 0x20 :: sy last
                :: sy 0x20 :: sy 0x29 :: sy 0x20
                :: (comment1.map sy ++ sy 0x20 :: sy 0x2192 :: sy 0x20 :: comment2.map sy))))) := by
  cases starred <;>
    simp [upstreamLine, chainCps_snoc front last hfront, List.map_append, List.append_assoc]

theorem isScalar_upstreamLine (sourceIDs targetIDs category : List Nat) (starred : Bool)
    (front : List Nat) (last : Nat) (comment1 comment2 : List Nat)
    (hsrc : ∀ c ∈ sourceIDs, isScalar c) (htgt : ∀ c ∈ targetIDs, isScalar c)
    (hcat : ∀ c ∈ category, isScalar c) (hchars : ∀ c ∈ front ++ [last], isScalar c)
    (hcomments : ∀ c ∈ comment1 ++ comment2, isScalar c) :
    ∀ c ∈ upstreamLine sourceIDs targetIDs category starred (front ++ [last]) comment1 comment2,
      isScalar c := by
  intro c hc
  have hchain : ∀ y ∈ chainCps (front ++ [last]), isScalar y := by
    intro y hy
    rcases mem_chainCps _ y hy with h | h | h
    · exact hchars y h
    · subst h; decide
    · subst h; decide
  simp only [upstreamLine, List.mem_append, List.mem_cons, List.mem_singleton,
    List.not_mem_nil, or_false] at hc
  have hlit : ∀ n : Nat, n = 0x20 ∨ n = 0x3B ∨ n = 0x09 ∨ n = 0x23 ∨ n = 0x2A ∨ n = 0x28
      ∨ n = 0x29 ∨ n = 0x2192 → isScalar n := by
    intro n hn
    unfold isScalar
    omega
  rcases hc with ((((((((((((h | h) | h) | h) | h) | h) | h) | h) | h) | h) | h) | h) | h)
  · exact hsrc c h
  · exact hlit c (by omega)
  · exact htgt c h
  · exact hlit c (by omega)
  · exact hcat c h
  · exact hlit c (by omega)
  · cases starred with
    | true => simp at h; exact hlit c (by omega)
    | false => simp at h
  · exact hlit c (by omega)
  · exact hchain c h
  · exact hlit c (by omega)
  · exact hcomments c (List.mem_append.mpr (Or.inl h))
  · exact hlit c (by omega)
  · exact hcomments c (List.mem_append.mpr (Or.inr h))

/-! ## What a success of the matcher tells -/

theorem loop_sound (body : List Sym → Caps → Cont → Option Caps) (S : List Nat)
    (hbody : ∀ s c k res, body s c k = some res →
      ∃ s' d, s' <:+ s ∧ d.length = c.length ∧ (∀ j, j ∉ S → d[j]? = (c)[j]?)
        ∧ k s' d = some res) :
    ∀ (n : Nat) (s : List Sym) (c : Caps) (k : Cont) (res : Caps),
      loop body n s c k = some res →
      ∃ s' d, s' <:+ s ∧ d.length = c.length ∧ (∀ j, j ∉ S → d[j]? = (c)[j]?)
        ∧ k s' d = some res := by
  intro n
  induction n with
  | zero =>
    intro s c k res h
    exact ⟨s, c, List.suffix_refl _, rfl, fun _ _ => rfl, h⟩
  | succ n ih =>
    intro s c k res h
    rw [loop_succ] at h
    cases hb : body s c (fun s' c' => if s'.length < s.length then loop body n s' c' k else none)
      with
    | none =>
      rw [hb] at h
      exact ⟨s, c, List.suffix_refl _, rfl, fun _ _ => rfl, h⟩
    | some res' =>
      rw [hb] at h
      cases h
      obtain ⟨s1, c1, hs1, hl1, hf1, hk1⟩ := hbody s c _ res hb
      by_cases hlt : s1.length < s.length
      · rw [if_pos hlt] at hk1
        obtain ⟨s2, c2, hs2, hl2, hf2, hk2⟩ := ih s1 c1 k res hk1
        exact ⟨s2, c2, hs2.trans hs1, hl2.trans hl1,
          fun j hj => (hf2 j hj).trans (hf1 j hj), hk2⟩
      · rw [if_neg hlt] at hk1
        cases hk1

theorem times_sound (body : List Sym → Caps → Cont → Option Caps) (S : List Nat)
    (hbody : ∀ s c k res, body s c k = some res →
      ∃ s' d, s' <:+ s ∧ d.length = c.length ∧ (∀ j, j ∉ S → d[j]? = (c)[j]?)
        ∧ k s' d = some res) :
    ∀ (n : Nat) (s : List Sym) (c : Caps) (k : Cont) (res : Caps),
      times body n s c k = some res →
      ∃ s' d, s' <:+ s ∧ d.length = c.length ∧ (∀ j, j ∉ S → d[j]? = (c)[j]?)
        ∧ k s' d = some res := by
  intro n
  induction n with
  | zero =>
    intro s c k res h
    exact ⟨s, c, List.suffix_refl _, rfl, fun _ _ => rfl, h⟩
  | succ n ih =>
    intro s c k res h
    simp only [times] at h
    obtain ⟨s1, c1, hs1, hl1, hf1, hk1⟩ := hbody s c _ res h
    obtain ⟨s2, c2, hs2, hl2, hf2, hk2⟩ := ih s1 c1 k res hk1
    exact ⟨s2, c2, hs2.trans hs1, hl2.trans hl1, fun j hj => (hf2 j hj).trans (hf1 j hj), hk2⟩

/-- A success of the matcher is a success of what follows, on a later position of the input and
with capture slots that differ from the ones given only where the expression writes. -/
theorem matchRe_sound : ∀ (re : Regex) (s : List Sym) (c : Caps) (k : Cont) (res : Caps),
    matchRe re s c k = some res →
    ∃ s' d, s' <:+ s ∧ d.length = c.length ∧ (∀ j, j ∉ slots re → d[j]? = (c)[j]?)
      ∧ k s' d = some res := by
  intro re
  induction re with
  | empty =>
    intro s c k res h
    exact ⟨s, c, List.suffix_refl _, rfl, fun _ _ => rfl, h⟩
  | cls rs =>
    intro s c k res h
    cases s with
    | nil => cases h
    | cons x s =>
      rw [matchRe_cls_cons] at h
      split at h
      · exact ⟨s, c, List.suffix_cons x s, rfl, fun _ _ => rfl, h⟩
      · cases h
  | cat a b iha ihb =>
    intro s c k res h
    rw [matchRe_cat] at h
    obtain ⟨s1, c1, hs1, hl1, hf1, hk1⟩ := iha s c _ res h
    obtain ⟨s2, c2, hs2, hl2, hf2, hk2⟩ := ihb s1 c1 k res hk1
    refine ⟨s2, c2, hs2.trans hs1, hl2.trans hl1, fun j hj => ?_, hk2⟩
    simp only [slots, List.mem_append, not_or] at hj
    exact (hf2 j hj.2).trans (hf1 j hj.1)
  | star x ih =>
    intro s c k res h
    rw [matchRe_star] at h
    exact loop_sound (matchRe x) (slots x) ih _ s c k res h
  | plus x ih =>
    intro s c k res h
    rw [matchRe_plus] at h
    obtain ⟨s1, c1, hs1, hl1, hf1, hk1⟩ := ih s c _ res h
    obtain ⟨s2, c2, hs2, hl2, hf2, hk2⟩ := loop_sound (matchRe x) (slots x) ih _ s1 c1 k res hk1
    exact ⟨s2, c2, hs2.trans hs1, hl2.trans hl1, fun j hj => (hf2 j hj).trans (hf1 j hj), hk2⟩
  | quest x ih =>
    intro s c k res h
    rw [matchRe_quest] at h
    cases hx : matchRe x s c k with
    | none =>
      rw [hx] at h
      exact ⟨s, c, List.suffix_refl _, rfl, fun _ _ => rfl, h⟩
    | some res' =>
      rw [hx] at h
      cases h
      exact ih s c k res hx
  | atLeast n x ih =>
    intro s c k res h
    simp only [matchRe] at h
    obtain ⟨s1, c1, hs1, hl1, hf1, hk1⟩ := times_sound (matchRe x) (slots x) ih n s c _ res h
    obtain ⟨s2, c2, hs2, hl2, hf2, hk2⟩ := loop_sound (matchRe x) (slots x) ih _ s1 c1 k res hk1
    exact ⟨s2, c2, hs2.trans hs1, hl2.trans hl1, fun j hj => (hf2 j hj).trans (hf1 j hj), hk2⟩
  | capture i x ih =>
    intro s c k res h
    rw [matchRe_capture] at h
    obtain ⟨s1, c1, hs1, hl1, hf1, hk1⟩ := ih s _ _ res h
    refine ⟨s1, c1.set (2 * i + 1) (some s1), hs1, ?_, fun j hj => ?_, hk1⟩
    · simp [hl1]
    · simp only [slots, List.mem_cons, not_or] at hj
      rw [List.getElem?_set_ne (Ne.symm hj.2.1), hf1 j hj.2.2, List.getElem?_set_ne (Ne.symm hj.1)]

theorem matchRe_seq_append (xs ys : List Regex) (hx : xs ≠ []) (hy : ys ≠ []) :
    ∀ (s : List Sym) (c : Caps) (k : Cont),
      matchRe (Regex.seq (xs ++ ys)) s c k
        = matchRe (Regex.seq xs) s c (fun s' c' => matchRe (Regex.seq ys) s' c' k) := by
  induction xs with
  | nil => exact absurd rfl hx
  | cons x xs ih =>
    intro s c k
    cases xs with
    | nil => exact matchRe_seq_cons' x ys s c k hy
    | cons x2 xs =>
      rw [List.cons_append, matchRe_seq_cons' x _ s c k (by simp), matchRe_seq_cons]
      congr 1
      funext s' c'
      exact ih (by simp) s' c' k

theorem plus_cls_sound (rs : List (Nat × Nat)) (s : List Sym) (c : Caps) (k : Cont) (res : Caps)
    (h : matchRe (.plus (.cls rs)) s c k = some res) :
    ∃ t, t <:+ s ∧ t.length < s.length ∧ k t c = some res := by
  cases s with
  | nil => cases h
  | cons x s =>
    by_cases hx : inClass rs x.rune = true
    · rw [plus_cls_cons rs x s c k hx] at h
      obtain ⟨t, ht, hk⟩ := star_cls_sound rs s c k res h
      exact ⟨t, ht.trans (List.suffix_cons x s), by
        have := ht.length_le
        simp only [List.length_cons]; omega, hk⟩
    · rw [matchRe_plus, matchRe_cls_cons, if_neg hx] at h
      cases h

theorem searchFrom_sound (re : Regex) (ncap : Nat) (s : List Sym) (res : Caps)
    (h : searchFrom re ncap s = some res) :
    ∃ t, t <:+ s ∧ matchRe re t ((List.replicate ncap none).set 0 (some t)) accept = some res := by
  induction s with
  | nil => exact ⟨[], List.suffix_refl _, h⟩
  | cons x s ih =>
    simp only [searchFrom] at h
    cases hm : matchRe re (x :: s) ((List.replicate ncap none).set 0 (some (x :: s))) accept with
    | some res' =>
      rw [hm] at h
      cases h
      exact ⟨x :: s, List.suffix_refl _, hm⟩
    | none =>
      rw [hm] at h
      obtain ⟨t, ht, hk⟩ := ih h
      exact ⟨t, ht.trans (List.suffix_cons x s), hk⟩

/-- After a match of the whole pattern, slots 6 and 7 hold the two ends of a non-empty stretch
of the input: group 3 is never empty. -/
theorem group3_slots (s : List Sym) (c res : Caps) (hc : c.length = 10)
    (h : matchRe r s c accept = some res) :
    ∃ a b, res[6]? = some (some a) ∧ res[7]? = some (some b) ∧ a <:+ s ∧ b <:+ a
      ∧ b.length < a.length := by
  rw [r_eq, rElems, matchRe_seq_append _ _ (by decide) (by decide)] at h
  obtain ⟨s1, c1, hs1, hl1, -, h1⟩ := matchRe_sound _ s c _ res h
  rw [targetElems, matchRe_seq_append _ _ (by decide) (by decide)] at h1
  obtain ⟨s2, c2, hs2, hl2, -, h2⟩ := matchRe_sound _ s1 c1 _ res h1
  rw [categoryElems, matchRe_seq_append _ _ (by decide) (by decide)] at h2
  obtain ⟨s3, c3, hs3, hl3, -, h3⟩ := matchRe_sound _ s2 c2 _ res h2
  have hlen : c3.length = 10 := by rw [hl3, hl2, hl1, hc]
  rw [chainElems, matchRe_seq_cons' _ _ _ _ _ (by decide), matchRe_capture, Regex.anyNotNL] at h3
  obtain ⟨t, ht, hlt, h4⟩ := plus_cls_sound dotRanges s3 _ _ res h3
  obtain ⟨s5, c5, -, hl5, hf5, h5⟩ := matchRe_sound _ t _ _ res h4
  have hslots : slots (Regex.seq arrowElems) = [8, 9] := by decide
  simp only [accept, Option.some.injEq] at h5
  refine ⟨s3, t, ?_, ?_, (hs3.trans hs2).trans hs1, ht, hlt⟩
  · rw [← h5, List.getElem?_set_ne (by decide), hf5 6 (by rw [hslots]; decide),
      List.getElem?_set_ne (by decide), List.getElem?_set]
    simp [hlen]
  · rw [← h5, List.getElem?_set_ne (by decide), hf5 7 (by rw [hslots]; decide),
      List.getElem?_set]
    simp [hlen]

theorem decodeRune_width_pos (b : Nat) (rest : GoString) : 1 ≤ (decodeRune (b :: rest)).2 := by
  simp only [decodeRune]
  repeat' split
  all_goals simp

theorem bytes_ne_nil_of_mem_decodeSyms : ∀ (n : Nat) (s : GoString) (x : Sym),
    x ∈ decodeSyms n s → x.bytes ≠ [] := by
  intro n
  induction n with
  | zero => intro s x hx; simp [decodeSyms] at hx
  | succ n ih =>
    intro s x hx
    cases s with
    | nil => simp [decodeSyms] at hx
    | cons b rest =>
      simp only [decodeSyms, List.mem_cons] at hx
      rcases hx with rfl | hx
      · have := decodeRune_width_pos b rest
        simp only
        intro h
        have h2 := congrArg List.length h
        simp only [List.length_take, List.length_cons, List.length_nil] at h2
        omega
      · exact ih _ x hx

theorem slice_ne_nil (a b : List Sym) (hb : b <:+ a) (hlt : b.length < a.length)
    (hbytes : ∀ x ∈ a, x.bytes ≠ []) : slice a b ≠ [] := by
  obtain ⟨p, rfl⟩ := hb
  rw [slice_append]
  cases p with
  | nil => simp at hlt
  | cons x p =>
    have hx := hbytes x (by simp)
    simp only [List.map_cons, List.flatten_cons]
    intro h
    exact hx (List.append_eq_nil.mp h).1

/-- The rendered confusable field of a matching line is not empty. -/
theorem group3_ne_nil (txt w s t f u : GoString)
    (h : FindStringSubmatch r txt = some [w, s, t, f, u]) : f ≠ [] := by
  simp only [FindStringSubmatch, numSubexp_r, Option.map_eq_some'] at h
  obtain ⟨res, hres, hgroups⟩ := h
  obtain ⟨start, hstart, hm⟩ := searchFrom_sound r _ _ res hres
  obtain ⟨a, b, h6, h7, ha, hb, hlt⟩ := group3_slots start _ res (by simp) hm
  have hrange : List.range (4 + 1) = [0, 1, 2, 3, 4] := by decide
  rw [hrange] at hgroups
  simp only [List.map_cons, List.map_nil, List.cons.injEq, and_true] at hgroups
  have hf : groupText res 3 = f := hgroups.2.2.2.1
  rw [← hf]
  have h3 : groupText res 3 = slice a b := by
    simp [groupText, h6, h7]
  rw [h3]
  apply slice_ne_nil a b hb hlt
  intro x hx
  exact bytes_ne_nil_of_mem_decodeSyms _ txt x ((ha.trans hstart).subset hx)

theorem runes_ne_nil (f : GoString) (h : f ≠ []) : runes f ≠ [] := by
  cases f with
  | nil => exact absurd rfl h
  | cons b rest => simp [runes, symbols, decodeSyms]

/-- The rendered confusable field of a matching line that `isAllowed` accepts is one code point
outside 0x21..0x7E. -/
theorem allowed_group3_single (txt w s t f u : GoString)
    (h : FindStringSubmatch r txt = some [w, s, t, f, u]) (ha : isAllowed f u = true) :
    ∃ c, runes f = [c] ∧ ¬ (0x21 ≤ c ∧ c ≤ 0x7E) := by
  have hne := runes_ne_nil f (group3_ne_nil txt w s t f u h)
  have hlen : (runes f).length ≤ 1 := by
    by_contra hlen
    rw [isAllowed_length_gt f u (by omega)] at ha
    cases ha
  match hr : runes f, hne, hlen with
  | [c], _, _ =>
    refine ⟨c, rfl, fun hin => ?_⟩
    have hany : (runes f).any (fun rn => In rn [BasicLatin]) = true := by
      rw [hr, List.any_cons, In_BasicLatin]
      simpa using hin
    rw [isAllowed_of_from_latin f u hany] at ha
    cases ha

/-- Where an entry of the mapping after the scanner loop comes from. -/
theorem entry_origin (lines : List GoString) : ∀ (m0 final : GoMap),
    scanLines m0 lines = some final → ∀ k v, final.get k = some v →
      m0.get k = some v ∨
        ∃ txt ∈ lines, ∃ w s t f u,
          FindStringSubmatch r txt = some [w, s, t, f, u]
          ∧ isAllowed f u = true
          ∧ formatUnicodeIDs s = some k ∧ formatUnicodeIDs t = some v := by
  induction lines with
  | nil =>
    intro m0 final h k v hk
    simp only [scanLines, Option.some.injEq] at h
    subst h
    exact Or.inl hk
  | cons txt rest ih =>
    intro m0 final h k v hk
    simp only [scanLines] at h
    cases hstep : lineStep m0 txt with
    | none => simp [hstep] at h
    | some m1 =>
      simp only [hstep] at h
      rcases ih m1 final h k v hk with h1 | ⟨txt', hmem, hrest⟩
      · rcases lineStep_origin m0 m1 txt hstep k v h1 with h0 | hline
        · exact Or.inl h0
        · exact Or.inr ⟨txt, List.mem_cons_self _ _, hline⟩
      · exact Or.inr ⟨txt', List.mem_cons_of_mem _ hmem, hrest⟩

/-- The groups the pattern captures on a line of the documented format: the greedy group 3 takes
the annotation up to its last arrow, group 4 the character after it, and the starred group
`(?: .+ →)*` between them takes no part. -/
theorem find_upstreamLine (sourceIDs targetIDs category : List Nat) (starred : Bool)
    (front : List Nat) (last : Nat) (comment1 comment2 : List Nat)
    (hsrc : ∀ c ∈ sourceIDs, inClass idRanges c = true)
    (htgt : ∀ c ∈ targetIDs, inClass idRanges c = true)
    (hcatlen : 2 ≤ category.length) (hcat : ∀ c ∈ category, inClass letterRanges c = true)
    (hne : front ≠ [])
    (hchars : ∀ c ∈ front ++ [last], isScalar c ∧ c ≠ 0x0A)
    (hlast : last ≠ 0x2192)
    (hc1 : comment1 ≠ []) (hc2 : comment2 ≠ [])
    (hcomments : ∀ c ∈ comment1 ++ comment2, isScalar c ∧ c ≠ 0x0A ∧ c ≠ 0x29) :
    FindStringSubmatch r
        (text (upstreamLine sourceIDs targetIDs category starred (front ++ [last])
          comment1 comment2))
      = some [text (upstreamLine sourceIDs targetIDs category starred (front ++ [last])
                comment1 comment2),
              text sourceIDs, text targetIDs, text (chainCps front), text [last]] := by
  have hfrontS : ∀ c ∈ front, isScalar c ∧ c ≠ 0x0A :=
    fun c hc => hchars c (List.mem_append.mpr (Or.inl hc))
  have hlastS : isScalar last ∧ last ≠ 0x0A := hchars last (by simp)
  have hchainS : ∀ y ∈ chainCps front, isScalar y ∧ y ≠ 0x0A := by
    intro y hy
    rcases mem_chainCps _ y hy with h | h | h
    · exact hfrontS y h
    · subst h; decide
    · subst h; decide
  have hscalar := isScalar_upstreamLine sourceIDs targetIDs category starred front last
    comment1 comment2 (fun c hc => isScalar_of_idRanges c (hsrc c hc))
    (fun c hc => isScalar_of_idRanges c (htgt c hc))
    (fun c hc => isScalar_of_letterRanges c (hcat c hc))
    (fun c hc => (hchars c hc).1) (fun c hc => (hcomments c hc).1)
  obtain ⟨s3, s4, s5, s6, s7, s8, s9, e9, e8, e7, e6, e5, e4, e3, hm⟩ :=
    match_line (sourceIDs.map sy) (targetIDs.map sy) (category.map sy) starred
      ((chainCps front).map sy) last (comment1.map sy) (comment2.map sy)
      ((List.replicate 10 none).set 0 (some
        ((upstreamLine sourceIDs targetIDs category starred (front ++ [last])
          comment1 comment2).map sy)))
      (forall_map_sy _ _ hsrc) (forall_map_sy _ _ htgt) (by simpa using hcatlen)
      (forall_map_sy _ _ hcat)
      (by simpa using chainCps_ne_nil front hne)
      (forall_map_sy _ _ (fun c hc => inClass_dot c (hchainS c hc).1 (hchainS c hc).2))
      (inClass_dot last hlastS.1 hlastS.2) hlast
      (by simpa using hc1) (by simpa using hc2)
      (forall_map_sy (fun c => inClass dotRanges c = true ∧ c ≠ 0x29) _
        (fun c hc => ⟨inClass_dot c (hcomments c (List.mem_append.mpr (Or.inl hc))).1
          (hcomments c (List.mem_append.mpr (Or.inl hc))).2.1,
          (hcomments c (List.mem_append.mpr (Or.inl hc))).2.2⟩))
      (forall_map_sy (fun c => inClass dotRanges c = true ∧ c ≠ 0x29) _
        (fun c hc => ⟨inClass_dot c (hcomments c (List.mem_append.mpr (Or.inr hc))).1
          (hcomments c (List.mem_append.mpr (Or.inr hc))).2.1,
          (hcomments c (List.mem_append.mpr (Or.inr hc))).2.2⟩))
  have hshape := upstreamLine_map_sy sourceIDs targetIDs category starred front last
    comment1 comment2 hne
  have hL : (upstreamLine sourceIDs targetIDs category starred (front ++ [last])
      comment1 comment2).map sy = sourceIDs.map sy ++ s3 := by
    rw [hshape, e3, e4, e5, e6, e7, e8, e9]
  rw [← hL] at hm
  have hfind := searchFrom_of_match r 10 _ _ hm
  simp only [FindStringSubmatch, numSubexp_r, symbols_text _ hscalar]
  rw [show 2 * (4 + 1) = 10 from rfl, hfind]
  simp only [Option.map_some', Option.some.injEq]
  have hg0 : slice ((upstreamLine sourceIDs targetIDs category starred (front ++ [last])
      comment1 comment2).map sy) [] = text (upstreamLine sourceIDs targetIDs category starred
        (front ++ [last]) comment1 comment2) := by
    rw [slice_nil, bytes_map_sy]
  have hg1 : slice ((upstreamLine sourceIDs targetIDs category starred (front ++ [last])
      comment1 comment2).map sy) s3 = text sourceIDs := by
    rw [hL, slice_append, bytes_map_sy]
  have hg2 : slice s4 s5 = text targetIDs := by
    rw [e4, slice_append, bytes_map_sy]
  have hg3 : slice s6 s7 = text (chainCps front) := by
    rw [e6, slice_append, bytes_map_sy]
  have hg4 : slice s8 s9 = text [last] := by
    rw [e8, slice_cons]; simp [sy, text]
  have hrange : List.range (4 + 1) = [0, 1, 2, 3, 4] := by decide
  rw [hrange]
  simp [groupText, List.replicate, List.set, List.getD, hg0, hg1, hg2, hg3, hg4]

/-! ## The models of `strings.Split`, of decoding and of the loop bound -/

theorem splitSpace_ne_nil (s : GoString) : splitSpace s ≠ [] := by
  cases s with
  | nil => simp [splitSpace]
  | cons b rest =>
    unfold splitSpace
    split
    · simp
    · split <;> simp

theorem intercalate_space_cons (t u : GoString) (us : List GoString) :
    [0x20].intercalate (t :: u :: us) = t ++ 0x20 :: [0x20].intercalate (u :: us) := by
  simp [List.intercalate, List.intersperse]

theorem intercalate_space_single (t : GoString) : [0x20].intercalate [t] = t := by
  simp [List.intercalate, List.intersperse]

/-- The pieces of `strings.Split(s, " ")` joined by spaces give `s` back. -/
theorem splitSpace_join (s : GoString) : [0x20].intercalate (splitSpace s) = s := by
  induction s with
  | nil => rfl
  | cons b rest ih =>
    unfold splitSpace
    cases hsp : splitSpace rest with
    | nil => exact absurd hsp (splitSpace_ne_nil rest)
    | cons t ts =>
      rw [hsp] at ih
      split
      · rename_i hb
        rw [intercalate_space_cons, ih, hb]
        rfl
      · cases ts with
        | nil =>
          rw [intercalate_space_single] at ih
          simp only [intercalate_space_single, ih]
        | cons u us =>
          rw [intercalate_space_cons] at ih
          simp only [intercalate_space_cons, List.cons_append, ih]

/-- No piece of `strings.Split(s, " ")` holds a space. -/
theorem splitSpace_no_space (s : GoString) : ∀ t ∈ splitSpace s, 0x20 ∉ t := by
  induction s with
  | nil => intro t ht; simp [splitSpace] at ht; subst ht; simp
  | cons b rest ih =>
    intro t ht
    unfold splitSpace at ht
    split at ht
    · rcases List.mem_cons.mp ht with rfl | hmem
      · simp
      · exact ih t hmem
    · rename_i hb
      split at ht
      · rename_i u us heq
        rcases List.mem_cons.mp ht with rfl | hmem
        · intro hin
          rcases List.mem_cons.mp hin with h | h
          · exact hb h.symm
          · exact ih u (by rw [heq]; exact List.mem_cons_self _ _) h
        · exact ih t (by rw [heq]; exact List.mem_cons_of_mem _ hmem)
      · simp at ht; subst ht
        intro hin
        simp at hin
        exact hb hin.symm

theorem decodeRune_width_le (b : Nat) (rest : GoString) :
    (decodeRune (b :: rest)).2 ≤ (b :: rest).length := by
  simp only [decodeRune]
  repeat' split
  all_goals simp

/-- Decoding walks the whole string: the bytes of the decoded positions are the string. -/
theorem decodeSyms_bytes : ∀ (n : Nat) (s : GoString), s.length ≤ n →
    ((decodeSyms n s).map Sym.bytes).flatten = s := by
  intro n
  induction n with
  | zero =>
    intro s hs
    cases s with
    | nil => rfl
    | cons b rest => simp at hs
  | succ n ih =>
    intro s hs
    cases s with
    | nil => rfl
    | cons b rest =>
      have h1 := decodeRune_width_pos b rest
      have h2 := decodeRune_width_le b rest
      simp only [decodeSyms, List.map_cons, List.flatten_cons]
      rw [ih]
      · exact List.take_append_drop _ _
      · simp only [List.length_drop, List.length_cons] at hs h2 ⊢
        omega

theorem symbols_bytes (s : GoString) : ((symbols s).map Sym.bytes).flatten = s :=
  decodeSyms_bytes s.length s (le_refl _)

theorem loop_congr (body : List Sym → Caps → Cont → Option Caps)
    (hbody : ∀ s c (k1 k2 : Cont), (∀ t c', t.length ≤ s.length → k1 t c' = k2 t c') →
      body s c k1 = body s c k2) :
    ∀ (n : Nat) (s : List Sym) (c : Caps) (k1 k2 : Cont),
      (∀ t c', t.length ≤ s.length → k1 t c' = k2 t c') →
      loop body n s c k1 = loop body n s c k2 := by
  intro n
  induction n with
  | zero => intro s c k1 k2 h; exact h s c (le_refl _)
  | succ n ih =>
    intro s c k1 k2 h
    rw [loop_succ, loop_succ, h s c (le_refl _)]
    rw [hbody s c _ (fun s' c' => if s'.length < s.length then loop body n s' c' k2 else none)]
    intro t c' ht
    by_cases hlt : t.length < s.length
    · rw [if_pos hlt, if_pos hlt]
      exact ih t c' k1 k2 (fun u c'' hu => h u c'' (by omega))
    · rw [if_neg hlt, if_neg hlt]

theorem times_congr (body : List Sym → Caps → Cont → Option Caps)
    (hbody : ∀ s c (k1 k2 : Cont), (∀ t c', t.length ≤ s.length → k1 t c' = k2 t c') →
      body s c k1 = body s c k2) :
    ∀ (n : Nat) (s : List Sym) (c : Caps) (k1 k2 : Cont),
      (∀ t c', t.length ≤ s.length → k1 t c' = k2 t c') →
      times body n s c k1 = times body n s c k2 := by
  intro n
  induction n with
  | zero => intro s c k1 k2 h; exact h s c (le_refl _)
  | succ n ih =>
    intro s c k1 k2 h
    simp only [times]
    apply hbody
    intro t c' ht
    exact ih t c' k1 k2 (fun u c'' hu => h u c'' (by omega))

/-- The matcher runs what follows only on inputs no longer than its own. -/
theorem matchRe_congr : ∀ (re : Regex) (s : List Sym) (c : Caps) (k1 k2 : Cont),
    (∀ t c', t.length ≤ s.length → k1 t c' = k2 t c') →
    matchRe re s c k1 = matchRe re s c k2 := by
  intro re
  induction re with
  | empty => intro s c k1 k2 h; exact h s c (le_refl _)
  | cls rs =>
    intro s c k1 k2 h
    cases s with
    | nil => rfl
    | cons x s =>
      rw [matchRe_cls_cons, matchRe_cls_cons, h s c (by simp)]
  | cat a b iha ihb =>
    intro s c k1 k2 h
    rw [matchRe_cat, matchRe_cat]
    apply iha
    intro t c' ht
    exact ihb t c' k1 k2 (fun u c'' hu => h u c'' (by omega))
  | star x ih =>
    intro s c k1 k2 h
    rw [matchRe_star, matchRe_star]
    exact loop_congr (matchRe x) ih _ s c k1 k2 h
  | plus x ih =>
    intro s c k1 k2 h
    rw [matchRe_plus, matchRe_plus]
    apply ih
    intro t c' ht
    exact loop_congr (matchRe x) ih _ t c' k1 k2 (fun u c'' hu => h u c'' (by omega))
  | quest x ih =>
    intro s c k1 k2 h
    rw [matchRe_quest, matchRe_quest, ih s c k1 k2 h, h s c (le_refl _)]
  | atLeast n x ih =>
    intro s c k1 k2 h
    simp only [matchRe]
    apply times_congr (matchRe x) ih
    intro t c' ht
    exact loop_congr (matchRe x) ih _ t c' k1 k2 (fun u c'' hu => h u c'' (by omega))
  | capture i x ih =>
    intro s c k1 k2 h
    rw [matchRe_capture, matchRe_capture]
    apply ih
    intro t c' ht
    exact h t _ ht

theorem loop_fuel (body : List Sym → Caps → Cont → Option Caps)
    (hbody : ∀ s c (k1 k2 : Cont), (∀ t c', t.length ≤ s.length → k1 t c' = k2 t c') →
      body s c k1 = body s c k2) :
    ∀ (n m : Nat) (s : List Sym) (c : Caps) (k : Cont), s.length < n → s.length < m →
      loop body n s c k = loop body m s c k := by
  intro n
  induction n with
  | zero => intro m s c k hn; omega
  | succ n ih =>
    intro m s c k hn hm
    cases m with
    | zero => omega
    | succ m =>
      rw [loop_succ, loop_succ]
      rw [hbody s c _ (fun s' c' => if s'.length < s.length then loop body m s' c' k else none)]
      intro t c' ht
      by_cases hlt : t.length < s.length
      · rw [if_pos hlt, if_pos hlt]
        exact ih m t c' k (by omega) (by omega)
      · rw [if_neg hlt, if_neg hlt]

/-- The bound `matchRe` gives a loop is never reached: a larger one gives the same result. -/
theorem star_fuel (x : Regex) (n : Nat) (s : List Sym) (c : Caps) (k : Cont)
    (hn : s.length < n) : loop (matchRe x) n s c k = matchRe (.star x) s c k := by
  rw [matchRe_star]
  exact loop_fuel (matchRe x) (matchRe_congr x) n _ s c k hn (Nat.lt_succ_self _)

/-! ## The claims -/

/-- Claim C1: when `from` decodes to more than one code point, or to exactly one code point that
lies in 0x21..0x7E, `isAllowed(from, to)` is false, whatever `to` is. -/
theorem isAllowed_from_rejected (from_ to_ : GoString)
    (h : (runes from_).length > 1 ∨ ∃ c, runes from_ = [c] ∧ 0x21 ≤ c ∧ c ≤ 0x7E) :
    isAllowed from_ to_ = false := by
  unfold isAllowed
  rcases h with h | ⟨c, hc, h1, h2⟩
  · simp [h]
  · simp [hc, In_BasicLatin, h1, h2]

/-- Claim C1 at `from = "A"` (one code point, U+0041, in Basic Latin) and `to = "a"`. -/
theorem isAllowed_from_rejected_witness :
    ((runes (lit "A")).length > 1 ∨ ∃ c, runes (lit "A") = [c] ∧ 0x21 ≤ c ∧ c ≤ 0x7E)
      ∧ isAllowed (lit "A") (lit "a") = false :=
  ⟨Or.inr ⟨0x41, by decide⟩,
    isAllowed_from_rejected (lit "A") (lit "a") (Or.inr ⟨0x41, by decide⟩)⟩

/-- Claim C2: when `from` is a single code point outside 0x21..0x7E, `isAllowed(from, to)` is
true exactly when `to` holds a code point in 0x21..0x7E or a whitespace code point
(`unicode.IsSpace`); and for every `from`, `isAllowed(from, to)` is false when `to` holds
neither. -/
theorem isAllowed_target_rule (from_ to_ : GoString) :
    ((∃ c, runes from_ = [c] ∧ ¬ (0x21 ≤ c ∧ c ≤ 0x7E)) →
      (isAllowed from_ to_ = true ↔
        ∃ t ∈ runes to_, (0x21 ≤ t ∧ t ≤ 0x7E) ∨ IsSpace t = true))
    ∧ ((∀ t ∈ runes to_, ¬ ((0x21 ≤ t ∧ t ≤ 0x7E) ∨ IsSpace t = true)) →
      isAllowed from_ to_ = false) := by
  constructor
  · rintro ⟨c, hc, hout⟩
    unfold isAllowed
    simp [hc, In_BasicLatin, hout]
  · intro h
    unfold isAllowed
    simp only [In_BasicLatin]
    split
    · rfl
    · split
      · rfl
      · rw [List.any_eq_false]
        intro t ht
        have := h t ht
        simpa using this

/-- Claim C2 at `from` Cyrillic `а` (U+0430): accepted with target Latin `a`, rejected with
target Cyrillic `б`, which holds no Basic Latin and no whitespace code point. -/
theorem isAllowed_target_rule_witness :
    isAllowed (lit "а") (lit "a") = true ∧ isAllowed (lit "а") (lit "б") = false :=
  ⟨((isAllowed_target_rule (lit "а") (lit "a")).1 ⟨0x430, by decide, by decide⟩).mpr
      ⟨0x61, by decide, by decide⟩,
    (isAllowed_target_rule (lit "а") (lit "б")).2 (by decide)⟩

/-- Claim C3: when every space-separated token of the ID string has at most 8 characters,
`formatUnicodeIDs` returns the pieces of the tokens, in order and with nothing between them, each
piece being a backslash, a capital `U` and the token left-padded with `0` to 8 characters, 10 in
all.  Lengths are counted as `len` counts them, in bytes; an ID string is ASCII, where every byte
is one character (second part).  `"1F600"` and `"41 42"` give the two strings of the spec. -/
theorem formatUnicodeIDs_pieces (ids : GoString) :
    ((∀ t ∈ splitSpace ids, t.length ≤ 8) →
      formatUnicodeIDs ids
          = some ((splitSpace ids).map
              (fun t => lit "\\U" ++ List.replicate (8 - t.length) 0x30 ++ t)).flatten
        ∧ ∀ t ∈ splitSpace ids,
            (List.replicate (8 - t.length) 0x30 ++ t).length = 8
            ∧ (lit "\\U" ++ List.replicate (8 - t.length) 0x30 ++ t).length = 10)
    ∧ ((∀ b ∈ ids, b < 0x80) → ∀ t ∈ splitSpace ids, runes t = t)
    ∧ formatUnicodeIDs (lit "1F600") = some (lit "\\U0001F600")
    ∧ formatUnicodeIDs (lit "41 42") = some (lit "\\U00000041\\U00000042") := by
  refine ⟨fun h => ⟨?_, ?_⟩, ?_, by decide, by decide⟩
  · simpa [formatUnicodeIDs] using foldlM_formatStep_of_le (splitSpace ids) [] h
  · intro t ht
    have := h t ht
    have h2 : (lit "\\U").length = 2 := by decide
    simp only [List.length_append, List.length_replicate, h2]
    omega
  · intro h t ht
    exact runes_ascii t (fun b hb => h b (mem_of_mem_splitSpace ids t ht b hb))

/-- Claim C3 at the ID string `2CA5 3F2`: two pieces, `\U00002CA5` and `\U000003F2`. -/
theorem formatUnicodeIDs_pieces_witness :
    formatUnicodeIDs (lit "2CA5 3F2")
        = some ((splitSpace (lit "2CA5 3F2")).map
            (fun t => lit "\\U" ++ List.replicate (8 - t.length) 0x30 ++ t)).flatten
    ∧ ∀ t ∈ splitSpace (lit "2CA5 3F2"),
        (List.replicate (8 - t.length) 0x30 ++ t).length = 8
        ∧ (lit "\\U" ++ List.replicate (8 - t.length) 0x30 ++ t).length = 10 :=
  (formatUnicodeIDs_pieces (lit "2CA5 3F2")).1 (by decide)

set_option maxRecDepth 100000 in
/-- Claim C4 fails as stated: a line whose source ID token has nine digits matches the pattern
and passes `isAllowed`, and the per-line step yields no mapping, because `formatUnicodeIDs`
panics on the token. -/
theorem lineStep_panics_on_long_id :
    FindStringSubmatch r longIdLine
        = some [longIdLine, lit "000000430", lit "0061", lit "а", lit "a"]
    ∧ isAllowed (lit "а") (lit "a") = true
    ∧ formatUnicodeIDs (lit "000000430") = none
    ∧ lineStep [] longIdLine = none := by
  refine ⟨by decide, by decide, by decide, by decide⟩

/-- Claim C4, amended: for a line that matches with fields that `isAllowed` accepts and whose
two ID fields have only tokens of at most 8 bytes, the per-line step yields the mapping in which
key `formatUnicodeIDs(sourceIDs)` has value `formatUnicodeIDs(targetIDs)`, whatever the key held
before, and every other key has the value it had. -/
theorem lineStep_inserts (m : GoMap) (txt w s t f u : GoString)
    (hmatch : FindStringSubmatch r txt = some [w, s, t, f, u])
    (hallowed : isAllowed f u = true)
    (hs : ∀ tok ∈ splitSpace s, tok.length ≤ 8)
    (ht : ∀ tok ∈ splitSpace t, tok.length ≤ 8) :
    ∃ k v, formatUnicodeIDs s = some k ∧ formatUnicodeIDs t = some v
      ∧ lineStep m txt = some (m.set k v)
      ∧ (m.set k v).get k = some v
      ∧ ∀ k', k' ≠ k → (m.set k v).get k' = m.get k' := by
  have h1 := foldlM_formatStep_of_le (splitSpace s) [] hs
  have h2 := foldlM_formatStep_of_le (splitSpace t) [] ht
  refine ⟨_, _, h1, h2, ?_, GoMap.get_set_self _ _ _, fun k' hk => GoMap.get_set_ne _ _ _ _ hk⟩
  rw [lineStep_of_allowed m txt w s t f u hmatch hallowed]
  simp only [formatUnicodeIDs] at *
  rw [h1, h2]
  rfl

set_option maxRecDepth 100000 in
/-- Claim C4 amended, at the line of the spec with source IDs `0430`, target IDs `0061` and
rendered characters Cyrillic `а` and Latin `a`: on the empty mapping the entry
`\U00000430 -> \U00000061` is added, and a value the key had is replaced. -/
theorem lineStep_inserts_witness :
    lineStep [] cyrillicLine = some [(lit "\\U00000430", lit "\\U00000061")]
    ∧ lineStep [(lit "\\U00000430", lit "x"), (lit "\\U00000100", lit "A")] cyrillicLine
        = some [(lit "\\U00000430", lit "\\U00000061"), (lit "\\U00000100", lit "A")]
    ∧ ∃ k v, formatUnicodeIDs (lit "0430") = some k ∧ formatUnicodeIDs (lit "0061") = some v
      ∧ lineStep [(lit "\\U00000430", lit "x")] cyrillicLine
          = some (GoMap.set [(lit "\\U00000430", lit "x")] k v)
      ∧ (GoMap.set [(lit "\\U00000430", lit "x")] k v).get k = some v
      ∧ ∀ k', k' ≠ k →
          (GoMap.set [(lit "\\U00000430", lit "x")] k v).get k'
            = GoMap.get [(lit "\\U00000430", lit "x")] k' :=
  ⟨by decide, by decide,
    lineStep_inserts [(lit "\\U00000430", lit "x")] cyrillicLine cyrillicLine (lit "0430")
      (lit "0061") (lit "а") (lit "a") (by decide) (by decide) (by decide) (by decide)⟩

/-- Claim C5: a line that does not match the pattern, or that matches with rendered fields on
which `isAllowed` is false, leaves the mapping exactly as it was. -/
theorem lineStep_unchanged (m : GoMap) (txt : GoString)
    (h : FindStringSubmatch r txt = none ∨
      ∃ w s t f u, FindStringSubmatch r txt = some [w, s, t, f, u] ∧ isAllowed f u = false) :
    lineStep m txt = some m := by
  rcases h with h | ⟨w, s, t, f, u, h, ha⟩
  · exact lineStep_of_nomatch m txt h
  · exact lineStep_of_rejected m txt w s t f u h ha

set_option maxRecDepth 100000 in
/-- Claim C5 at the line of the spec with source IDs `0041`, target IDs `0061` and rendered
characters `A` and `a`: it matches, `isAllowed` is false, and no entry is added; and at a
comment line, which does not match. -/
theorem lineStep_unchanged_witness :
    FindStringSubmatch r latinLine = some [latinLine, lit "0041", lit "0061", lit "A", lit "a"]
    ∧ isAllowed (lit "A") (lit "a") = false
    ∧ lineStep [(lit "\\U00000100", lit "A")] latinLine = some [(lit "\\U00000100", lit "A")]
    ∧ lineStep [] latinLine = some []
    ∧ FindStringSubmatch r (lit "# confusables.txt") = none
    ∧ lineStep [(lit "\\U00000100", lit "A")] (lit "# confusables.txt")
        = some [(lit "\\U00000100", lit "A")] :=
  ⟨by decide, by decide,
    lineStep_unchanged _ latinLine
      (Or.inr ⟨latinLine, lit "0041", lit "0061", lit "A", lit "a", by decide, by decide⟩),
    by decide, by decide,
    lineStep_unchanged _ (lit "# confusables.txt") (Or.inl (by decide))⟩

set_option maxRecDepth 100000 in
/-- Claim C6 fails as stated: the line below passes the rule on its rendered fields (Cyrillic `а`,
Latin `a`) and inserts the key formatted from its ID field `0041`; that key is not a supplemental
one and denotes U+0041, a code point inside 0x21..0x7E. -/
theorem upstream_key_denotes_basic_latin :
    scanLines [] [mismatchLine] = some [(lit "\\U00000041", lit "\\U00000061")]
    ∧ GoMap.get [] (lit "\\U00000041") = none
    ∧ FindStringSubmatch r mismatchLine
        = some [mismatchLine, lit "0041", lit "0061", lit "а", lit "a"]
    ∧ isAllowed (lit "а") (lit "a") = true
    ∧ denoted (lit "\\U00000041") = some [0x41]
    ∧ (0x21 ≤ 0x41 ∧ 0x41 ≤ 0x7E) := by
  refine ⟨by decide, by decide, by decide, by decide, by decide, by decide⟩

/-- Claim C6, amended: every entry of the final mapping is an entry of the supplemental mapping,
or its key and value are the formatted ID fields of an upstream line that matched the pattern
with rendered fields satisfying the allow-list rule: the rendered confusable field is a single
code point outside 0x21..0x7E and the rendered target field holds a code point in 0x21..0x7E or a
whitespace code point. -/
theorem scanLines_origin (m0 : GoMap) (lines : List GoString) (final : GoMap) (k v : GoString)
    (hrun : scanLines m0 lines = some final) (hk : final.get k = some v) :
    m0.get k = some v ∨
      ∃ txt ∈ lines, ∃ w s t f u,
        FindStringSubmatch r txt = some [w, s, t, f, u]
        ∧ isAllowed f u = true
        ∧ (∃ c, runes f = [c] ∧ ¬ (0x21 ≤ c ∧ c ≤ 0x7E))
        ∧ (∃ c ∈ runes u, (0x21 ≤ c ∧ c ≤ 0x7E) ∨ IsSpace c = true)
        ∧ formatUnicodeIDs s = some k ∧ formatUnicodeIDs t = some v := by
  rcases entry_origin lines m0 final hrun k v hk with h | ⟨txt, hmem, w, s, t, f, u, hm,
    ha, hs, ht⟩
  · exact Or.inl h
  · exact Or.inr ⟨txt, hmem, w, s, t, f, u, hm, ha, allowed_group3_single txt w s t f u hm ha,
      isAllowed_target f u ha, hs, ht⟩

set_option maxRecDepth 100000 in
/-- Claim C6 amended, at a supplemental mapping with one entry and the upstream line of the spec
for Cyrillic `а`: the entry `\U00000430 -> \U00000061` of the final mapping comes from that
line. -/
theorem scanLines_origin_witness :
    scanLines [(lit "\\U00000100", lit "A")] [cyrillicLine]
        = some [(lit "\\U00000100", lit "A"), (lit "\\U00000430", lit "\\U00000061")]
    ∧ (GoMap.get [(lit "\\U00000100", lit "A")] (lit "\\U00000430") = some (lit "\\U00000061") ∨
      ∃ txt ∈ [cyrillicLine], ∃ w s t f u,
        FindStringSubmatch r txt = some [w, s, t, f, u]
        ∧ isAllowed f u = true
        ∧ (∃ c, runes f = [c] ∧ ¬ (0x21 ≤ c ∧ c ≤ 0x7E))
        ∧ (∃ c ∈ runes u, (0x21 ≤ c ∧ c ≤ 0x7E) ∨ IsSpace c = true)
        ∧ formatUnicodeIDs s = some (lit "\\U00000430")
        ∧ formatUnicodeIDs t = some (lit "\\U00000061")) :=
  ⟨by decide,
    scanLines_origin [(lit "\\U00000100", lit "A")] [cyrillicLine]
      [(lit "\\U00000100", lit "A"), (lit "\\U00000430", lit "\\U00000061")]
      (lit "\\U00000430") (lit "\\U00000061") (by decide) (by decide)⟩

/-- Claim C7: when the supplemental file opens, the fetch and the scan succeed and no line of the
feed matches the pattern, the final mapping is the supplemental mapping and the run ends by
writing the table body: the opening line `var confusables = []string` with its brace, then for
every entry the `range` yields a line made of a tab, the quoted key, a comma, the quoted value, a
comma and a newline, then the closing brace; the `range` yields each supplemental entry once and
nothing else. -/
theorem table_of_supplemental_only (w : World)
    (hopen : w.openErr = none) (hget : w.getErr = none) (hscan : w.scanErr = none)
    (hnomatch : ∀ txt ∈ w.lines, FindStringSubmatch r txt = none)
    (horder : (w.rangeOrder w.decoded).Perm w.decoded) :
    scanLines w.decoded w.lines = some w.decoded
    ∧ (main w).getLast? = some (.writeGoFile (lit "confusables_table.go") (lit "confusables")
        (lit "var confusables = []string\x7b\n"
          ++ ((w.rangeOrder w.decoded).map
                (fun e => lit "\t\"" ++ e.1 ++ lit "\",\"" ++ e.2 ++ lit "\",\n")).flatten
          ++ lit "\x7d"))
    ∧ ((w.rangeOrder w.decoded).map
          (fun e => lit "\t\"" ++ e.1 ++ lit "\",\"" ++ e.2 ++ lit "\",\n")).length
        = w.decoded.length
    ∧ ∀ e, e ∈ w.rangeOrder w.decoded ↔ e ∈ w.decoded := by
  have hs := scanLines_of_nomatch w.decoded w.lines hnomatch
  refine ⟨hs, ?_, ?_, fun e => horder.mem_iff⟩
  · have hbody : tableBody (w.rangeOrder w.decoded)
        = lit "var confusables = []string\x7b\n"
          ++ ((w.rangeOrder w.decoded).map
                (fun e => lit "\t\"" ++ e.1 ++ lit "\",\"" ++ e.2 ++ lit "\",\n")).flatten
          ++ lit "\x7d" := by
      simp only [tableBody, foldl_entryLine]
      rfl
    simp only [main, hopen, mainAfterOpen, hget, mainAfterGet, hs, hscan, hbody]
    cases w.decodeErr <;> simp
  · rw [List.length_map]; exact horder.length_eq

set_option maxRecDepth 100000 in
/-- Claim C7 at a supplemental mapping with the single entry `\U00000100 -> A` and a feed of one
comment line: the table holds exactly that pair. -/
theorem table_of_supplemental_only_witness :
    main oneEntryWorld =
      [.openFile ExtraConfusablesFile, .httpGet ConfusablesURI,
        .writeGoFile (lit "confusables_table.go") (lit "confusables")
          (lit "var confusables = []string\x7b\n\t\"\\U00000100\",\"A\",\n\x7d")]
    ∧ (scanLines oneEntryWorld.decoded oneEntryWorld.lines = some oneEntryWorld.decoded
      ∧ (main oneEntryWorld).getLast? = some (.writeGoFile (lit "confusables_table.go")
          (lit "confusables")
          (lit "var confusables = []string\x7b\n"
            ++ ((oneEntryWorld.rangeOrder oneEntryWorld.decoded).map
                (fun e => lit "\t\"" ++ e.1 ++ lit "\",\"" ++ e.2 ++ lit "\",\n")).flatten
            ++ lit "\x7d"))
      ∧ ((oneEntryWorld.rangeOrder oneEntryWorld.decoded).map
            (fun e => lit "\t\"" ++ e.1 ++ lit "\",\"" ++ e.2 ++ lit "\",\n")).length
          = oneEntryWorld.decoded.length
      ∧ ∀ e, e ∈ oneEntryWorld.rangeOrder oneEntryWorld.decoded ↔ e ∈ oneEntryWorld.decoded) :=
  ⟨by decide,
    table_of_supplemental_only oneEntryWorld rfl rfl rfl (by decide) (List.Perm.refl _)⟩

set_option maxRecDepth 100000 in
/-- Claim C8, the code at the failing input: on a line of the documented format whose annotation
is the chain `ⲥ → ϲ → c`, the pattern matches with third group `ⲥ → ϲ` (five code points) where
the claim has the first character `ⲥ`; the fourth group is the last character `c`.  The
intermediate character the starred group `(?: .+ →)*` is there to skip is captured by the greedy
group 3, so `isAllowed` gets a `from` of several code points and the line, which it accepts for
`ⲥ` alone, adds no entry. -/
theorem chain_group3_not_first :
    chainLine = text (upstreamLine (cps "2CA5") (cps "0063") (cps "MA") true
        [0x2CA5, 0x3F2, 0x63] (cps "COPTIC SMALL LETTER SIMA") (cps "LATIN SMALL LETTER C"))
    ∧ FindStringSubmatch r chainLine
        = some [chainLine, lit "2CA5", lit "0063", lit "ⲥ → ϲ", lit "c"]
    ∧ lit "ⲥ → ϲ" ≠ lit "ⲥ"
    ∧ runes (lit "ⲥ → ϲ") = [0x2CA5, 0x20, 0x2192, 0x20, 0x3F2]
    ∧ isAllowed (lit "ⲥ → ϲ") (lit "c") = false
    ∧ isAllowed (lit "ⲥ") (lit "c") = true
    ∧ lineStep [] chainLine = some [] := by
  refine ⟨by decide, by decide, by decide, by decide, by decide, by decide, by decide⟩

/-- Claim C9 fails as stated: in a world where opening the supplemental file fails and
everything else would succeed, the run prints the error and ends; it fetches nothing and writes
no table. -/
theorem main_stops_on_open_error :
    main openFailsWorld
        = [.openFile ExtraConfusablesFile,
            .println (lit "open ./extraConfusables.json: permission denied")]
    ∧ Effect.httpGet ConfusablesURI ∉ main openFailsWorld
    ∧ ∀ f p b, Effect.writeGoFile f p b ∉ main openFailsWorld := by
  refine ⟨by decide, by decide, ?_⟩
  intro f p b h
  have h1 : main openFailsWorld = [.openFile ExtraConfusablesFile,
      .println (lit "open ./extraConfusables.json: permission denied")] := by decide
  rw [h1] at h
  simp at h

/-- Claim C9, amended: when opening the supplemental file fails, the run prints the error and
returns at once, nothing being fetched, parsed or rendered; a decode error alone is printed and
the run goes on as the run without that error does. -/
theorem main_open_error_returns (w : World) (err : GoString) :
    (w.openErr = some err → main w = [.openFile ExtraConfusablesFile, .println err])
    ∧ (w.openErr = none → w.decodeErr = some err →
        main w = .openFile ExtraConfusablesFile :: .println err ::
          (main { w with decodeErr := none }).tail) := by
  constructor
  · intro h
    simp [main, h]
  · intro h1 h2
    simp [main, h1, mainAfterOpen, h2, mainAfterGet]

/-- Claim C9 amended, at a world where the open fails and at a world where only the decoding
fails (an empty supplemental file): the first run ends after printing, the second prints, fetches
and writes the table. -/
theorem main_open_error_returns_witness :
    main openFailsWorld
        = [.openFile ExtraConfusablesFile,
            .println (lit "open ./extraConfusables.json: permission denied")]
    ∧ main decodeFailsWorld
        = .openFile ExtraConfusablesFile :: .println (lit "EOF") ::
            (main { decodeFailsWorld with decodeErr := none }).tail :=
  ⟨(main_open_error_returns openFailsWorld
      (lit "open ./extraConfusables.json: permission denied")).1 rfl,
    (main_open_error_returns decodeFailsWorld (lit "EOF")).2 rfl rfl⟩

/-- Claim C10: `formatUnicodeIDs` returns exactly when every space-separated token of its input
has at most 8 bytes; what it returns has 10 bytes per token, an empty token (also the single
token of the empty input) giving `\U00000000`; and on the input `000000041`, a token of 9 bytes,
the padding count `8 - len` is negative and the call panics instead of returning. -/
theorem formatUnicodeIDs_completes_iff (ids : GoString) :
    ((formatUnicodeIDs ids).isSome = true ↔ ∀ t ∈ splitSpace ids, t.length ≤ 8)
    ∧ (∀ out, formatUnicodeIDs ids = some out → out.length = 10 * (splitSpace ids).length)
    ∧ formatUnicodeIDs [] = some (lit "\\U00000000")
    ∧ formatUnicodeIDs (lit "41  42") = some (lit "\\U00000041\\U00000000\\U00000042")
    ∧ (∃ t ∈ splitSpace (lit "000000041"), 9 ≤ t.length ∧ 8 - (t.length : Int) < 0)
    ∧ formatUnicodeIDs (lit "000000041") = none := by
  have hiff : (formatUnicodeIDs ids).isSome = true ↔ ∀ t ∈ splitSpace ids, t.length ≤ 8 := by
    constructor
    · exact foldlM_formatStep_isSome (splitSpace ids) []
    · intro h
      simp [formatUnicodeIDs, foldlM_formatStep_of_le (splitSpace ids) [] h]
  refine ⟨hiff, ?_, by decide, by decide, ⟨lit "000000041", by decide, by decide, by decide⟩,
    by decide⟩
  intro out hout
  have h : ∀ t ∈ splitSpace ids, t.length ≤ 8 := hiff.mp (by simp [hout])
  have h2 := foldlM_formatStep_of_le (splitSpace ids) [] h
  simp only [formatUnicodeIDs] at hout
  rw [h2] at hout
  simp only [List.nil_append, Option.some.injEq] at hout
  rw [← hout]
  exact pieces_length _ h

/-- Claim C10 at the input `41 000000042`, whose second token has 9 bytes: the call does not
return. -/
theorem formatUnicodeIDs_completes_iff_witness :
    ¬ (formatUnicodeIDs (lit "41 000000042")).isSome = true :=
  fun h => absurd ((formatUnicodeIDs_completes_iff (lit "41 000000042")).1.mp h) (by decide)
end Confusables
